import Mathlib

/-!
# Maze generator: randomized depth-first search with backtracking

A shallow embedding of `maze-generator.go` and a verification of its
generation state machine.

Conventions of the embedding.

* A `*Cell` is a heap reference.  Every cell is allocated by `initGrid` and
  stored once in the `grid` slice, which is never reordered, so a reference is
  represented by the position of the cell in `grid`, and the heap by the list
  of cells itself.  The nil pointer is `none`.
* Go `int` values are mathematical integers in the generator.  All its
  arithmetic is on cell coordinates and grid positions, which are bounded by
  the length of the grid.  The function `index` is also given with 64-bit
  wrap-around (`index64`), the two agreeing on every grid whose number of
  cells is an `int`.
* A Go run-time panic (index out of range) is the outer `none` of an `Option`.
* `rand.Int(rand.Reader, n)` is an arbitrary value of `[0, n)`: the caller
  supplies a number `r` of entropy and the outcome is `r % n`.
* Drawing, the window and the frame clock do not act on the generator state
  and are left out.
-/

namespace Maze

/-! ## Data model -/

/-- The `Cell` struct: wall order is top, right, bottom, left. -/
structure Cell where
  walls : Fin 4 → Bool
  row : Int
  col : Int
  visited : Bool

/-- A reference `*Cell`, represented by the position of the cell in the grid. -/
abbrev CellRef := Nat

/-- Assignment `c.walls[k] = v`. -/
def Cell.setWall (c : Cell) (k : Fin 4) (v : Bool) : Cell :=
  { c with walls := Function.update c.walls k v }

/-- Assignment `c.visited = true`. -/
def Cell.markVisited (c : Cell) : Cell :=
  { c with visited := true }

/-- Store through a reference: `*p = f(*p)`.  A reference outside the heap
does not occur in the program and leaves the heap as it is. -/
def modifyCell (grid : List Cell) (p : CellRef) (f : Cell → Cell) : List Cell :=
  match grid[p]? with
  | some c => grid.set p (f c)
  | none => grid

/-! ## Grid and neighbour lookup -/

/-- The function `index`, with the arithmetic read on the mathematical
integers.  This is the form used by `getCellAt`: on a grid of `cols * rows`
cells that exists as a slice the values stay below `len(grid)`, where it
agrees with the machine-word form `index64` below. -/
def index (i j cols rows : Int) : Int :=
  if i < 0 ∨ j < 0 ∨ i > cols - 1 ∨ j > rows - 1 then -1 else i + j * cols

/-- The values of the Go type `int` on a 64-bit platform. -/
def isInt64 (x : Int) : Prop := -2 ^ 63 ≤ x ∧ x < 2 ^ 63

instance (x : Int) : Decidable (isInt64 x) := by
  unfold isInt64
  infer_instance

/-- Two's-complement wrap-around of an integer into the 64-bit range of `int`. -/
def wrap64 (x : Int) : Int := (x + 2 ^ 63) % 2 ^ 64 - 2 ^ 63

/-- The function `index` with the arithmetic of the Go type `int` on a 64-bit
platform: the subtractions, the product and the sum wrap around. -/
def index64 (i j cols rows : Int) : Int :=
  if i < 0 ∨ j < 0 ∨ i > wrap64 (cols - 1) ∨ j > wrap64 (rows - 1) then -1
  else wrap64 (i + wrap64 (j * cols))

/-- The function `getCellAt`: outer `none` is the index-out-of-range panic of
`grid[possibleIndex]`, inner `none` is the nil cell returned with the error. -/
def getCellAt (i j cols rows : Int) (grid : List Cell) : Option (Option CellRef) :=
  let possibleIndex := index i j cols rows
  if possibleIndex = -1 then some none
  else if 0 ≤ possibleIndex ∧ possibleIndex.toNat < grid.length then
    some (some possibleIndex.toNat)
  else none

/-- One of the four blocks `if x != nil && !x.visited { neighbors = append(neighbors, x) }`. -/
def appendUnvisited (grid : List Cell) (neighbors : List CellRef) (x : Option CellRef) :
    List CellRef :=
  match x with
  | none => neighbors
  | some q =>
    match grid[q]? with
    | some c => if !c.visited then neighbors ++ [q] else neighbors
    | none => neighbors

/-- The method `Cell.GetNeighbors`: outer `none` is a panic, `some none` is the
nil list returned with the error, `some (some l)` the non-empty list. -/
def GetNeighbors (c : CellRef) (grid : List Cell) (cols rows : Int) :
    Option (Option (List CellRef)) :=
  match grid[c]? with
  | none => none
  | some cell =>
    let j := cell.row
    let i := cell.col
    match getCellAt i (j - 1) cols rows grid with
    | none => none
    | some top =>
    match getCellAt (i + 1) j cols rows grid with
    | none => none
    | some right =>
    match getCellAt i (j + 1) cols rows grid with
    | none => none
    | some bottom =>
    match getCellAt (i - 1) j cols rows grid with
    | none => none
    | some left =>
      let neighbors : List CellRef := []
      let neighbors := appendUnvisited grid neighbors top
      let neighbors := appendUnvisited grid neighbors right
      let neighbors := appendUnvisited grid neighbors bottom
      let neighbors := appendUnvisited grid neighbors left
      if neighbors.length > 0 then some (some neighbors) else some none

/-- The method `Cell.GetRandomNeighbor`; `r` is the entropy read by `rand.Int`. -/
def GetRandomNeighbor (c : CellRef) (grid : List Cell) (cols rows : Int) (r : Nat) :
    Option (Option CellRef) :=
  match GetNeighbors c grid cols rows with
  | none => none
  | some none => some none
  | some (some neighbors) =>
    let randomIndex := r % neighbors.length
    match neighbors[randomIndex]? with
    | some n => some (some n)
    | none => none

/-- The function `NewCell`. -/
def NewCell (col row : Int) : Cell :=
  { walls := fun _ => true, row := row, col := col, visited := false }

/-- The function `initGrid`: the two nested counting loops append to `grid`. -/
def initGrid (grid : List Cell) (cols rows : Int) : List Cell :=
  (List.range rows.toNat).foldl
    (fun (grid : List Cell) (j : Nat) => (List.range cols.toNat).foldl
      (fun (grid : List Cell) (i : Nat) => grid ++ [NewCell (i : Int) (j : Int)]) grid)
    grid

/-! ## Backtrack stack -/

/-- Modelled from the spec: the package `stack` is not part of the sources.  It is
"a simple LIFO of Cell references with operations push, pop, length"; the top of
the stack is the head of the list. -/
abbrev Stack := List CellRef

/-- Modelled from the spec: `stack.NewStack(capacity)`, the capacity is a hint. -/
def Stack.NewStack (_capacity : Nat) : Stack := []

/-- Modelled from the spec: `Push`. -/
def Stack.Push (s : Stack) (c : CellRef) : Stack := c :: s

/-- Modelled from the spec: `Pop`; `none` on the empty stack (a programming error). -/
def Stack.Pop (s : Stack) : Option (CellRef × Stack) :=
  match s with
  | [] => none
  | c :: rest => some (c, rest)

/-- Modelled from the spec: `Len`. -/
def Stack.Len (s : Stack) : Nat := s.length

/-! ## Wall removal and the generator step -/

/-- The function `removeWalls` on the two cells referred to by its arguments. -/
def removeWalls (a b : Cell) : Cell × Cell :=
  let x := a.col - b.col
  let ab : Cell × Cell :=
    if x = 1 then (a.setWall 3 false, b.setWall 1 false)
    else if x = -1 then (a.setWall 1 false, b.setWall 3 false)
    else (a, b)
  let y := ab.1.row - ab.2.row
  if y = 1 then (ab.1.setWall 0 false, ab.2.setWall 2 false)
  else if y = -1 then (ab.1.setWall 2 false, ab.2.setWall 0 false)
  else ab

/-- The call `removeWalls(a, b)` through references into the heap. -/
def removeWallsAt (grid : List Cell) (a b : CellRef) : List Cell :=
  match grid[a]?, grid[b]? with
  | some ca, some cb =>
    let ab := removeWalls ca cb
    (grid.set a ab.1).set b ab.2
  | _, _ => grid

/-- The generator state held by the locals of `run`. -/
structure State where
  grid : List Cell
  currentCell : CellRef
  backTrackStack : Stack

/-- The test `nextCell != nil && !nextCell.visited`. -/
def isFresh (grid : List Cell) (nextCell : Option CellRef) : Bool :=
  match nextCell with
  | none => false
  | some n =>
    match grid[n]? with
    | some c => !c.visited
    | none => false

/-- One iteration of the frame loop of `run`, restricted to the generator
state (steps 1 to 2.4 of the source comments and the backtracking branch). -/
def step (cols rows : Int) (s : State) (r : Nat) : Option State :=
  let grid := modifyCell s.grid s.currentCell Cell.markVisited
  match GetRandomNeighbor s.currentCell grid cols rows r with
  | none => none
  | some nextCell =>
    if isFresh grid nextCell then
      match nextCell with
      | none => none -- not reached: the test above fails on the nil pointer
      | some n =>
        let backTrackStack := s.backTrackStack.Push s.currentCell
        let grid := removeWallsAt grid s.currentCell n
        let grid := modifyCell grid n Cell.markVisited
        some { grid := grid, currentCell := n, backTrackStack := backTrackStack }
    else if s.backTrackStack.Len > 0 then
      match s.backTrackStack.Pop with
      | none => none
      | some (top, rest) =>
        some { grid := grid, currentCell := top, backTrackStack := rest }
    else
      some { grid := grid, currentCell := s.currentCell, backTrackStack := s.backTrackStack }

/-- The prologue of `run`: `grid = initGrid(grid, cols, rows)`,
`currentCell = grid[0]` (a panic on the empty grid) and the empty stack. -/
def initState (cols rows : Int) : Option State :=
  let grid := initGrid [] cols rows
  if 0 < grid.length then
    some { grid := grid, currentCell := 0, backTrackStack := Stack.NewStack 50 }
  else none

/-- The state after `k` iterations of the frame loop, the `t`-th iteration
reading the entropy `rs t`. -/
def run (cols rows : Int) (rs : Nat → Nat) : Nat → Option State
  | 0 => initState cols rows
  | k + 1 =>
    match run cols rows rs k with
    | none => none
    | some s => step cols rows s (rs k)

/-! ## Notions used by the specification -/

/-- Column offset of the direction `d` (0 top, 1 right, 2 bottom, 3 left). -/
def dcol (d : Fin 4) : Int := if d = 1 then 1 else if d = 3 then -1 else 0

/-- Row offset of the direction `d`; rows grow downwards, so top is `-1`. -/
def drow (d : Fin 4) : Int := if d = 2 then 1 else if d = 0 then -1 else 0

/-- The cell `b` lies in direction `d` from the cell `a`. -/
def inDirection (d : Fin 4) (a b : Cell) : Prop :=
  b.col = a.col + dcol d ∧ b.row = a.row + drow d

instance (d : Fin 4) (a b : Cell) : Decidable (inDirection d a b) := by
  unfold inDirection
  infer_instance

/-- A well-formed `C x R` grid: `C * R` cells in row-major order, the cell at
position `p` carrying the coordinates `col = p % C`, `row = p / C`. -/
def WFGrid (C R : Nat) (grid : List Cell) : Prop :=
  grid.length = C * R ∧
  ∀ p c, grid[p]? = some c → c.col = ((p % C : Nat) : Int) ∧ c.row = ((p / C : Nat) : Int)

/-- The cell at position `p` has been visited. -/
def visitedAt (grid : List Cell) (p : CellRef) : Prop :=
  match grid[p]? with
  | some c => c.visited = true
  | none => False

instance (grid : List Cell) (p : CellRef) : Decidable (visitedAt grid p) := by
  unfold visitedAt
  split <;> infer_instance

/-- The wall between the cells at positions `p` and `q` is removed: the cells
are grid-adjacent and the two wall flags facing each other are both false. -/
def carved (grid : List Cell) (p q : CellRef) : Prop :=
  match grid[p]?, grid[q]? with
  | some a, some b => ∃ d : Fin 4, inDirection d a b ∧ a.walls d = false ∧ b.walls (d + 2) = false
  | _, _ => False

instance (grid : List Cell) (p q : CellRef) : Decidable (carved grid p q) := by
  unfold carved
  split <;> infer_instance

/-- The number of removed wall pairs: the grid-adjacent pairs of cells, each
counted once, whose shared wall flags are false. -/
def removedWallPairs (grid : List Cell) : Nat :=
  ((Finset.range grid.length ×ˢ Finset.range grid.length).filter
    (fun pq => pq.1 < pq.2 ∧ carved grid pq.1 pq.2)).card

/-- The done state: the current cell has no unvisited neighbour and the stack
is empty, so the next step neither advances nor backtracks. -/
def isDone (cols rows : Int) (s : State) : Prop :=
  GetNeighbors s.currentCell s.grid cols rows = some none ∧ s.backTrackStack.Len = 0

instance (cols rows : Int) (s : State) : Decidable (isDone cols rows s) := by
  unfold isDone
  infer_instance

/-- The four directional lookups of a cell in the order top, right, bottom, left. -/
def directionalLookups (c : Cell) : List (Int × Int) :=
  [(c.col, c.row - 1), (c.col + 1, c.row), (c.col, c.row + 1), (c.col - 1, c.row)]

/-- The filter applied to one directional lookup: drop it when it is out of
bounds or when the cell found there is already visited. -/
def keepUnvisited (grid : List Cell) (C R : Int) (ij : Int × Int) : Option CellRef :=
  if 0 ≤ ij.1 ∧ ij.1 < C ∧ 0 ≤ ij.2 ∧ ij.2 < R then
    match grid[(ij.1 + ij.2 * C).toNat]? with
    | some n => if n.visited then none else some (ij.1 + ij.2 * C).toNat
    | none => none
  else none

/-- The unvisited-neighbour list as the specification words it: the four
directional lookups, dropping those out of bounds and those already visited,
in the order of the lookups. -/
def unvisitedNeighbors (grid : List Cell) (C R : Int) (c : Cell) : List CellRef :=
  (directionalLookups c).filterMap (keepUnvisited grid C R)

/-! ## Transitions and invariant -/

/-- The cell at position `q` after an advance from `cur` to its neighbour `n`
in direction `d`: both cells are visited, the wall `d` of `cur` and the facing
wall `d + 2` of `n` are cleared, every other cell is untouched. -/
def advanceCell (cur n : CellRef) (d : Fin 4) (q : CellRef) (c : Cell) : Cell :=
  if q = n then (c.setWall (d + 2) false).markVisited
  else if q = cur then c.markVisited.setWall d false
  else c

/-- The cell at position `q` after a step that does not advance: only the
current cell is marked visited. -/
def markCell (cur : CellRef) (q : CellRef) (c : Cell) : Cell :=
  if q = cur then c.markVisited else c

/-- An advancing step from `s` to `t` into the cell `n` lying in direction `d`,
chosen with the entropy `r`. -/
structure Advance (C R : Nat) (s t : State) (n : CellRef) (d : Fin 4) (r : Nat) : Prop where
  chosen : ∃ a, s.grid[s.currentCell]? = some a ∧
    unvisitedNeighbors s.grid C R a ≠ [] ∧
    (unvisitedNeighbors s.grid C R a)[r % (unvisitedNeighbors s.grid C R a).length]? = some n
  neighbour : ∃ a b, s.grid[s.currentCell]? = some a ∧ s.grid[n]? = some b ∧
    inDirection d a b ∧ b.visited = false
  current : t.currentCell = n
  stack : t.backTrackStack = s.currentCell :: s.backTrackStack
  grid : ∀ q, t.grid[q]? = (s.grid[q]?).map (advanceCell s.currentCell n d q)

/-- A step from `s` to `t` that does not advance: the current cell has no
unvisited neighbour; the step pops the stack, or leaves the current cell and the
empty stack as they are. -/
structure Retreat (C R : Nat) (s t : State) : Prop where
  stuck : ∃ a, s.grid[s.currentCell]? = some a ∧ unvisitedNeighbors s.grid C R a = []
  grid : ∀ q, t.grid[q]? = (s.grid[q]?).map (markCell s.currentCell q)
  move : (∃ rest, s.backTrackStack = t.currentCell :: rest ∧ t.backTrackStack = rest) ∨
    (s.backTrackStack = [] ∧ t.backTrackStack = [] ∧ t.currentCell = s.currentCell)

/-- The invariant of the generator on a `C x R` grid. -/
structure Inv (C R : Nat) (s : State) : Prop where
  wf : WFGrid C R s.grid
  cur : s.currentCell < C * R
  stackVisited : ∀ p ∈ s.backTrackStack, visitedAt s.grid p
  fresh : ∀ (p : CellRef) (a : Cell), s.grid[p]? = some a → a.visited = false →
    ∀ d, a.walls d = true
  sym : ∀ (p q : CellRef) (a b : Cell) (d : Fin 4), s.grid[p]? = some a → s.grid[q]? = some b → inDirection d a b →
    a.walls d = b.walls (d + 2)
  closed : ∀ (p q : CellRef) (a b : Cell) (d : Fin 4), s.grid[p]? = some a → s.grid[q]? = some b → inDirection d a b →
    a.visited = true → p ∉ s.backTrackStack → p ≠ s.currentCell → b.visited = true

/-! ## Measures -/

/-- The number of cells, other than the current one, that are not yet visited. -/
def unvisitedOthers (s : State) : Nat :=
  ((Finset.range s.grid.length).filter
    (fun p => ¬ visitedAt s.grid p ∧ p ≠ s.currentCell)).card

/-- The work left: two steps (advance into it, backtrack out of it) for every
unvisited cell other than the current one, one step for every stack entry. -/
def potential (s : State) : Nat :=
  2 * unvisitedOthers s + s.backTrackStack.length

/-! ## The passage graph -/

/-- The passage graph of a `C x R` grid: its vertices are the `C * R` cells and
its edges the grid-adjacent pairs whose wall between them is removed. -/
def passage (C R : Nat) (grid : List Cell) : SimpleGraph (Fin (C * R)) :=
  SimpleGraph.fromRel (fun p q : Fin (C * R) => carved grid p.val q.val)

/-- The invariant of the generator on the passage graph: every cell that is
visited or current is connected to the start cell, the graph has no cycle, and
every cell discovered so far, except the start cell, came with one removed
wall pair. -/
structure TreeInv (C R : Nat) (s : State) : Prop where
  reach : ∀ r0 p : Fin (C * R), r0.val = 0 →
    (visitedAt s.grid p.val ∨ p.val = s.currentCell) → (passage C R s.grid).Reachable r0 p
  acyclic : (passage C R s.grid).IsAcyclic
  count : removedWallPairs s.grid + unvisitedOthers s = C * R - 1

/-! ## The path of the search -/

/-- The stack read from bottom to top, followed by the current cell. -/
def dfsPath (s : State) : List CellRef :=
  s.backTrackStack.reverse ++ [s.currentCell]

/-- The invariant of the generator on its path, stated on the current cell
followed by the stack from its top: no cell occurs twice, the last cell is the
start cell `grid[0]`, and the wall between two consecutive cells is removed. -/
structure PathInv (s : State) : Prop where
  nodup : (s.currentCell :: s.backTrackStack).Nodup
  last : (s.currentCell :: s.backTrackStack).getLast? = some 0
  chain : List.Chain' (carved s.grid) (s.currentCell :: s.backTrackStack)

/-- Every removed wall flag faces a cell of the grid. -/
def wallsInside (grid : List Cell) : Prop :=
  ∀ (p : CellRef) (a : Cell) (d : Fin 4), grid[p]? = some a → a.walls d = false →
    ∃ (q : CellRef) (b : Cell), grid[q]? = some b ∧ inDirection d a b

/-- The grid `g2` keeps what the grid `g` has: the same cells at the same
positions with the same coordinates, every visited cell still visited and
every removed wall flag still removed. -/
def MonoGrid (g g2 : List Cell) : Prop :=
  g2.length = g.length ∧
  ∀ (p : CellRef) (c : Cell), g[p]? = some c →
    ∃ c2, g2[p]? = some c2 ∧ c2.col = c.col ∧ c2.row = c.row ∧
      (c.visited = true → c2.visited = true) ∧ ∀ d, c.walls d = false → c2.walls d = false

/-! ## Scenarios -/

/-- The coordinates `(col, row)` of the current cell after `k` steps. -/
def currentCoords (cols rows : Int) (rs : Nat → Nat) (k : Nat) : Option (Int × Int) :=
  match run cols rows rs k with
  | some s => (s.grid[s.currentCell]?).map (fun c => (c.col, c.row))
  | none => none

/-- The stack after `k` steps. -/
def stackAfter (cols rows : Int) (rs : Nat → Nat) (k : Nat) : Option (List CellRef) :=
  (run cols rows rs k).map State.backTrackStack

/-- The four wall flags of a cell in the order top, right, bottom, left. -/
def wallsOf (c : Cell) : List Bool :=
  (List.finRange 4).map c.walls

/-! # Verification -/


/-! ## Heap lemmas -/

theorem modifyCell_length (grid : List Cell) (p : CellRef) (f : Cell → Cell) :
    (modifyCell grid p f).length = grid.length := by
  unfold modifyCell
  split <;> simp

theorem modifyCell_getElem? (grid : List Cell) (p q : CellRef) (f : Cell → Cell) :
    (modifyCell grid p f)[q]? = if q = p then (grid[q]?).map f else grid[q]? := by
  unfold modifyCell
  split
  · rename_i c hc
    rw [List.getElem?_set]
    by_cases h : p = q
    · subst h
      have hlt : p < grid.length := (List.getElem?_eq_some.1 hc).1
      simp [hc, hlt]
    · have h2 : ¬ q = p := fun e => h e.symm
      simp [h, h2]
  · rename_i hc
    by_cases h : q = p
    · subst h
      simp [hc]
    · simp [h]

theorem removeWallsAt_length (grid : List Cell) (a b : CellRef) :
    (removeWallsAt grid a b).length = grid.length := by
  unfold removeWallsAt
  split <;> simp

theorem removeWallsAt_getElem? (grid : List Cell) (a b : CellRef) (ca cb : Cell)
    (ha : grid[a]? = some ca) (hb : grid[b]? = some cb) (q : CellRef) :
    (removeWallsAt grid a b)[q]? =
      if q = b then some (removeWalls ca cb).2
      else if q = a then some (removeWalls ca cb).1 else grid[q]? := by
  have hla : a < grid.length := (List.getElem?_eq_some.1 ha).1
  have hlb : b < grid.length := (List.getElem?_eq_some.1 hb).1
  unfold removeWallsAt
  simp only [ha, hb]
  rw [List.getElem?_set, List.getElem?_set]
  by_cases h1 : b = q
  · subst h1
    simp [hlb]
  · have h1' : ¬ q = b := fun e => h1 e.symm
    by_cases h2 : a = q
    · subst h2
      simp [h1, h1', hla]
    · have h2' : ¬ q = a := fun e => h2 e.symm
      simp [h1, h1', h2, h2']

/-! ## Arithmetic of grid positions -/

theorem inBounds_index_lt {i j C R : Int} (hi : 0 ≤ i) (hiC : i < C) (hj : 0 ≤ j) (hjR : j < R) :
    0 ≤ i + j * C ∧ i + j * C < C * R := by
  have h1 : 0 ≤ j * C := mul_nonneg hj (by omega)
  have h2 : (j + 1) * C ≤ R * C := mul_le_mul_of_nonneg_right (by omega) (by omega)
  constructor
  · omega
  · nlinarith

/-- Inside a grid that fits a 64-bit machine word the value computed by `index`
and the intermediate product stay in the range of the Go type `int`, so the
arithmetic of `index` does not wrap around. -/
theorem index_fits_word {i j C R : Int} (hi : 0 ≤ i) (hiC : i < C) (hj : 0 ≤ j) (hjR : j < R)
    (hword : C * R ≤ 2 ^ 63) :
    0 ≤ j * C ∧ j * C < 2 ^ 63 ∧ 0 ≤ index i j C R ∧ index i j C R < 2 ^ 63 := by
  have h := inBounds_index_lt hi hiC hj hjR
  have h1 : 0 ≤ j * C := mul_nonneg hj (by omega)
  have h2 : index i j C R = i + j * C := by
    unfold index
    rw [if_neg (by omega)]
  rw [h2]
  refine ⟨h1, by omega, h.1, by omega⟩

theorem pos_coords {C R p : Nat} (hp : p < C * R) :
    p % C < C ∧ p / C < R ∧ p % C + p / C * C = p := by
  have hC : 0 < C := by
    rcases Nat.eq_zero_or_pos C with h | h
    · subst h
      simp at hp
    · exact h
  refine ⟨Nat.mod_lt _ hC, ?_, Nat.mod_add_div' p C⟩
  exact Nat.div_lt_of_lt_mul hp

theorem coords_pos {C i j : Nat} (hi : i < C) :
    (i + j * C) % C = i ∧ (i + j * C) / C = j := by
  have hC : 0 < C := by omega
  constructor
  · rw [Nat.add_mul_mod_self_right, Nat.mod_eq_of_lt hi]
  · rw [Nat.add_mul_div_right _ _ hC, Nat.div_eq_of_lt hi, Nat.zero_add]

theorem coords_lt {C R i j : Nat} (hi : i < C) (hj : j < R) : i + j * C < C * R := by
  have h2 : (j + 1) * C ≤ R * C := Nat.mul_le_mul_right C hj
  nlinarith

/-! ## `initGrid` -/

theorem foldl_append_cells (f : Nat → Cell) (l : List Nat) (g : List Cell) :
    l.foldl (fun grid i => grid ++ [f i]) g = g ++ l.map f := by
  induction l generalizing g with
  | nil => simp
  | cons x xs ih => simp [ih]

theorem initGrid_succ (g : List Cell) (C R : Nat) :
    initGrid g (C : Int) ((R + 1 : Nat) : Int) =
      initGrid g (C : Int) (R : Int) ++ (List.range C).map (fun (i : Nat) => NewCell (i : Int) (R : Int)) := by
  unfold initGrid
  simp only [Int.toNat_ofNat, List.range_succ, List.foldl_append, List.foldl_cons, List.foldl_nil]
  rw [foldl_append_cells (fun (i : Nat) => NewCell (i : Int) (R : Int))]

theorem initGrid_zero (g : List Cell) (C : Nat) : initGrid g (C : Int) ((0 : Nat) : Int) = g := by
  simp [initGrid]

theorem initGrid_length (C R : Nat) : (initGrid [] (C : Int) (R : Int)).length = C * R := by
  induction R with
  | zero => simp [initGrid]
  | succ R ih =>
    rw [initGrid_succ, List.length_append, ih]
    simp [Nat.mul_succ]

theorem initGrid_getElem? (C R p : Nat) (hp : p < C * R) :
    (initGrid [] (C : Int) (R : Int))[p]? = some (NewCell ((p % C : Nat) : Int) ((p / C : Nat) : Int)) := by
  induction R with
  | zero => simp at hp
  | succ R ih =>
    rw [initGrid_succ]
    by_cases h : p < C * R
    · rw [List.getElem?_append_left (by rw [initGrid_length]; exact h)]
      exact ih h
    · have hle : C * R ≤ p := Nat.le_of_not_lt h
      rw [List.getElem?_append_right (by rw [initGrid_length]; exact hle), initGrid_length]
      have hk : p - C * R < C := by
        rw [Nat.mul_succ] at hp
        omega
      have hpe : p = (p - C * R) + R * C := by
        have : R * C = C * R := Nat.mul_comm R C
        omega
      have hc := coords_pos (C := C) (j := R) hk
      rw [← hpe] at hc
      rw [List.getElem?_map, List.getElem?_range hk, hc.1, hc.2]
      rfl

theorem initGrid_wf (C R : Nat) : WFGrid C R (initGrid [] (C : Int) (R : Int)) := by
  refine ⟨initGrid_length C R, ?_⟩
  intro p c hc
  have hp : p < C * R := by
    have := (List.getElem?_eq_some.1 hc).1
    rwa [initGrid_length] at this
  rw [initGrid_getElem? C R p hp] at hc
  cases hc
  exact ⟨rfl, rfl⟩

/-! ## Well-formed grids and the lookups -/

theorem wf_cell {C R : Nat} {g : List Cell} (hwf : WFGrid C R g) {p : Nat} {c : Cell}
    (hc : g[p]? = some c) :
    p < C * R ∧ 0 ≤ c.col ∧ c.col < C ∧ 0 ≤ c.row ∧ c.row < R ∧ c.col + c.row * C = p := by
  have hp : p < C * R := by
    have := (List.getElem?_eq_some.1 hc).1
    rwa [hwf.1] at this
  obtain ⟨h1, h2⟩ := hwf.2 p c hc
  obtain ⟨k1, k2, k3⟩ := pos_coords hp
  rw [h1, h2]
  refine ⟨hp, Int.natCast_nonneg _, by exact_mod_cast k1, Int.natCast_nonneg _,
    by exact_mod_cast k2, by exact_mod_cast k3⟩

theorem wf_exists {C R : Nat} {g : List Cell} (hwf : WFGrid C R g) {p : Nat} (hp : p < C * R) :
    ∃ c, g[p]? = some c := by
  have : p < g.length := by rw [hwf.1]; exact hp
  exact ⟨g[p], List.getElem?_eq_getElem this⟩

theorem wf_lookup {C R : Nat} {g : List Cell} (hwf : WFGrid C R g) {i j : Int}
    (hi : 0 ≤ i) (hiC : i < C) (hj : 0 ≤ j) (hjR : j < R) :
    ∃ c, g[(i + j * C).toNat]? = some c ∧ c.col = i ∧ c.row = j ∧ (i + j * C).toNat < C * R := by
  lift i to ℕ using hi
  lift j to ℕ using hj
  have hi' : i < C := by exact_mod_cast hiC
  have hj' : j < R := by exact_mod_cast hjR
  have he : ((i : Int) + (j : Int) * (C : Int)).toNat = i + j * C := by
    have : ((i : Int) + (j : Int) * (C : Int)) = ((i + j * C : Nat) : Int) := by push_cast; rfl
    rw [this, Int.toNat_ofNat]
  rw [he]
  have hlt := coords_lt hi' hj'
  obtain ⟨c, hc⟩ := wf_exists hwf hlt
  obtain ⟨h1, h2⟩ := hwf.2 _ c hc
  obtain ⟨k1, k2⟩ := coords_pos (C := C) (j := j) hi'
  rw [k1] at h1
  rw [k2] at h2
  exact ⟨c, hc, h1, h2, hlt⟩

theorem wf_same_coords {C R : Nat} {g : List Cell} (hwf : WFGrid C R g) {p q : Nat} {a b : Cell}
    (ha : g[p]? = some a) (hb : g[q]? = some b) (hcol : a.col = b.col) (hrow : a.row = b.row) :
    p = q := by
  have h1 := (wf_cell hwf ha).2.2.2.2.2
  have h2 := (wf_cell hwf hb).2.2.2.2.2
  rw [hcol, hrow] at h1
  have : (p : Int) = (q : Int) := by rw [← h1, ← h2]
  exact_mod_cast this

theorem getCellAt_wf {C R : Nat} {g : List Cell} (hwf : WFGrid C R g) (i j : Int) :
    getCellAt i j C R g =
      some (if 0 ≤ i ∧ i < C ∧ 0 ≤ j ∧ j < R then some (i + j * C).toNat else none) := by
  unfold getCellAt
  by_cases hb : 0 ≤ i ∧ i < C ∧ 0 ≤ j ∧ j < R
  · obtain ⟨h1, h2, h3, h4⟩ := hb
    have hidx : index i j C R = i + j * C := by
      unfold index
      rw [if_neg (by omega)]
    have hlt := inBounds_index_lt h1 h2 h3 h4
    obtain ⟨c, hc, -, -, hl⟩ := wf_lookup hwf h1 h2 h3 h4
    have hlen : (i + j * C).toNat < g.length := by rw [hwf.1]; exact hl
    simp only [hidx]
    rw [if_neg (by omega), if_pos ⟨hlt.1, hlen⟩, if_pos ⟨h1, h2, h3, h4⟩]
  · have hidx : index i j C R = -1 := by
      unfold index
      rw [if_pos (by omega)]
    simp only [hidx]
    rw [if_neg hb]
    simp

theorem index_unbounded (i j C R : Int) :
    index i j C R = (if 0 ≤ i ∧ i < C ∧ 0 ≤ j ∧ j < R then i + j * C else -1) ∧
    (index i j C R = -1 ↔ ¬ (0 ≤ i ∧ i < C ∧ 0 ≤ j ∧ j < R)) := by
  have hin : (0 ≤ i ∧ i < C ∧ 0 ≤ j ∧ j < R) → index i j C R = i + j * C := by
    rintro ⟨h1, h2, h3, h4⟩
    unfold index
    rw [if_neg (by omega)]
  have hout : ¬ (0 ≤ i ∧ i < C ∧ 0 ≤ j ∧ j < R) → index i j C R = -1 := by
    intro h
    unfold index
    rw [if_pos (by omega)]
  refine ⟨?_, ?_, hout⟩
  · by_cases hb : 0 ≤ i ∧ i < C ∧ 0 ≤ j ∧ j < R
    · rw [if_pos hb, hin hb]
    · rw [if_neg hb, hout hb]
  · intro h hb
    rw [hin hb] at h
    have := inBounds_index_lt hb.1 hb.2.1 hb.2.2.1 hb.2.2.2
    omega

/-! ## `index` on machine words -/

theorem wrap64_id {x : Int} (h0 : -2 ^ 63 ≤ x) (h1 : x < 2 ^ 63) : wrap64 x = x := by
  unfold wrap64
  omega

theorem index64_eq_index {i j C R : Int} (hC : 1 ≤ C) (hR : 1 ≤ R) (hsize : C * R < 2 ^ 63) :
    index64 i j C R = index i j C R := by
  have hCR : C ≤ C * R := by nlinarith
  have hRC : R ≤ C * R := by nlinarith
  have hC1 : wrap64 (C - 1) = C - 1 := wrap64_id (by omega) (by omega)
  have hR1 : wrap64 (R - 1) = R - 1 := wrap64_id (by omega) (by omega)
  unfold index64 index
  rw [hC1, hR1]
  by_cases hb : i < 0 ∨ j < 0 ∨ i > C - 1 ∨ j > R - 1
  · rw [if_pos hb, if_pos hb]
  · rw [if_neg hb, if_neg hb]
    have h := inBounds_index_lt (i := i) (j := j) (C := C) (R := R) (by omega) (by omega)
      (by omega) (by omega)
    have hj : 0 ≤ j * C := mul_nonneg (by omega) (by omega)
    rw [wrap64_id (x := j * C) (by omega) (by omega), wrap64_id (by omega) (by omega)]

/-- C9, as amended: for `C, R ≥ 1` whose product, the number of cells, is a
value of the Go type `int`, the function `index` computed with the wrap-around
arithmetic of `int` returns `i + j*C` inside the grid and the sentinel `-1`
outside, and returns `-1` exactly for the coordinates outside the grid (a
column index equal to `C` does not wrap to the next row). -/
theorem index64_spec (i j C R : Int) (hC : 1 ≤ C) (hR : 1 ≤ R) (hsize : C * R < 2 ^ 63) :
    index64 i j C R = (if 0 ≤ i ∧ i < C ∧ 0 ≤ j ∧ j < R then i + j * C else -1) ∧
    (index64 i j C R = -1 ↔ ¬ (0 ≤ i ∧ i < C ∧ 0 ≤ j ∧ j < R)) ∧
    index64 i j C R = index i j C R := by
  have h := index_unbounded i j C R
  rw [index64_eq_index hC hR hsize]
  exact ⟨h.1, h.2, rfl⟩

theorem index64_spec_witness :
    index64 1 1 2 2 = (if 0 ≤ (1 : Int) ∧ (1 : Int) < 2 ∧ 0 ≤ (1 : Int) ∧ (1 : Int) < 2
      then 1 + 1 * 2 else -1) ∧
    (index64 1 1 2 2 = -1 ↔ ¬ (0 ≤ (1 : Int) ∧ (1 : Int) < 2 ∧ 0 ≤ (1 : Int) ∧ (1 : Int) < 2)) ∧
    index64 1 1 2 2 = index 1 1 2 2 :=
  index64_spec 1 1 2 2 (by decide) (by decide) (by decide)

/-- Counterexample to C9 as stated: with `C = 2^62` columns and `R = 4` rows
the coordinates `i = 2^62 - 1`, `j = 3` are in bounds and all four arguments
are values of `int`, but `i + j*C = 2^64 - 1` wraps around and `index`
returns the sentinel `-1`. -/
theorem index64_wraps :
    isInt64 (2 ^ 62 - 1) ∧ isInt64 3 ∧ isInt64 (2 ^ 62) ∧ isInt64 4 ∧
    (1 : Int) ≤ 2 ^ 62 ∧ (1 : Int) ≤ 4 ∧
    (0 ≤ (2 ^ 62 - 1 : Int) ∧ (2 ^ 62 - 1 : Int) < 2 ^ 62 ∧ 0 ≤ (3 : Int) ∧ (3 : Int) < 4) ∧
    index64 (2 ^ 62 - 1) 3 (2 ^ 62) 4 = -1 ∧
    index64 (2 ^ 62 - 1) 3 (2 ^ 62) 4 ≠ (2 ^ 62 - 1) + 3 * 2 ^ 62 := by
  decide

/-- C10: `initGrid` on the empty grid returns `C * R` cells, and the cell at
position `i + j*C` has `col = i`, `row = j`, four walls and is not visited. -/
theorem initGrid_spec (C R : Nat) :
    (initGrid [] (C : Int) (R : Int)).length = C * R ∧
    ∀ i j : Nat, i < C → j < R →
      ∃ c, (initGrid [] (C : Int) (R : Int))[i + j * C]? = some c ∧
        c.col = (i : Int) ∧ c.row = (j : Int) ∧ (∀ k, c.walls k = true) ∧ c.visited = false := by
  refine ⟨initGrid_length C R, ?_⟩
  intro i j hi hj
  obtain ⟨k1, k2⟩ := coords_pos (C := C) (j := j) hi
  refine ⟨_, initGrid_getElem? C R _ (coords_lt hi hj), ?_, ?_, ?_, ?_⟩
  · rw [k1]; rfl
  · rw [k2]; rfl
  · intro k; rfl
  · rfl

theorem initGrid_spec_witness :
    ∃ c, (initGrid [] ((3 : Nat) : Int) ((2 : Nat) : Int))[2 + 1 * 3]? = some c ∧
      c.col = ((2 : Nat) : Int) ∧ c.row = ((1 : Nat) : Int) ∧ (∀ k, c.walls k = true) ∧
      c.visited = false :=
  (initGrid_spec 3 2).2 2 1 (by decide) (by decide)

/-! ## Directions and wall removal -/

theorem dcol_opp (d : Fin 4) : dcol (d + 2) = - dcol d := by
  fin_cases d <;> decide

theorem drow_opp (d : Fin 4) : drow (d + 2) = - drow d := by
  fin_cases d <;> decide

theorem opp_opp (d : Fin 4) : d + 2 + 2 = d := by
  fin_cases d <;> decide

theorem opp_ne (d : Fin 4) : d + 2 ≠ d := by
  fin_cases d <;> decide

theorem inDirection_opp {d : Fin 4} {a b : Cell} (h : inDirection d a b) :
    inDirection (d + 2) b a := by
  unfold inDirection at *
  rw [dcol_opp, drow_opp]
  omega

theorem inDirection_unique {d e : Fin 4} {a b : Cell} (h : inDirection d a b)
    (h2 : inDirection e a b) : d = e := by
  unfold inDirection at *
  fin_cases d <;> fin_cases e <;> simp [dcol, drow] at h h2 ⊢ <;> omega

theorem inDirection_irrefl {d : Fin 4} {a : Cell} : ¬ inDirection d a a := by
  unfold inDirection
  fin_cases d <;> simp [dcol, drow]

theorem removeWalls_of_inDirection {d : Fin 4} {a b : Cell} (h : inDirection d a b) :
    removeWalls a b = (a.setWall d false, b.setWall (d + 2) false) := by
  unfold inDirection at h
  obtain ⟨h1, h2⟩ := h
  fin_cases d
  · have hx : a.col - b.col = 0 := by simp [dcol] at h1; omega
    have hy : a.row - b.row = 1 := by simp [drow] at h2; omega
    simp [removeWalls, hx, hy, Cell.setWall]
  · have hx : a.col - b.col = -1 := by simp [dcol] at h1; omega
    have hy : a.row - b.row = 0 := by simp [drow] at h2; omega
    simp [removeWalls, hx, hy, Cell.setWall]
  · have hx : a.col - b.col = 0 := by simp [dcol] at h1; omega
    have hy : a.row - b.row = -1 := by simp [drow] at h2; omega
    simp [removeWalls, hx, hy, Cell.setWall]
  · have hx : a.col - b.col = 1 := by simp [dcol] at h1; omega
    have hy : a.row - b.row = 0 := by simp [drow] at h2; omega
    simp [removeWalls, hx, hy, Cell.setWall]

theorem removeWalls_frame (a b : Cell) :
    (removeWalls a b).1.col = a.col ∧ (removeWalls a b).1.row = a.row ∧
    (removeWalls a b).1.visited = a.visited ∧
    (removeWalls a b).2.col = b.col ∧ (removeWalls a b).2.row = b.row ∧
    (removeWalls a b).2.visited = b.visited := by
  unfold removeWalls
  simp only [Cell.setWall]
  split_ifs <;> simp

/-- C7: `removeWalls` follows the four-case rule (left/right for a column
difference of `1`/`-1`, top/bottom for a row difference of `1`/`-1`); it never
changes coordinates or visited flags, and for a direct neighbour `b` of `a` in
direction `d` exactly `a.walls[d]` and `b.walls[d+2]` become false. -/
theorem removeWalls_spec (a b : Cell) :
    (a.col - b.col = 1 →
      (removeWalls a b).1.walls 3 = false ∧ (removeWalls a b).2.walls 1 = false) ∧
    (a.col - b.col = -1 →
      (removeWalls a b).1.walls 1 = false ∧ (removeWalls a b).2.walls 3 = false) ∧
    (a.row - b.row = 1 →
      (removeWalls a b).1.walls 0 = false ∧ (removeWalls a b).2.walls 2 = false) ∧
    (a.row - b.row = -1 →
      (removeWalls a b).1.walls 2 = false ∧ (removeWalls a b).2.walls 0 = false) ∧
    ((removeWalls a b).1.col = a.col ∧ (removeWalls a b).1.row = a.row ∧
      (removeWalls a b).1.visited = a.visited ∧
      (removeWalls a b).2.col = b.col ∧ (removeWalls a b).2.row = b.row ∧
      (removeWalls a b).2.visited = b.visited) ∧
    (∀ d : Fin 4, inDirection d a b →
      (∀ k, (removeWalls a b).1.walls k = if k = d then false else a.walls k) ∧
      (∀ k, (removeWalls a b).2.walls k = if k = d + 2 then false else b.walls k)) := by
  refine ⟨?_, ?_, ?_, ?_, removeWalls_frame a b, ?_⟩
  · intro h
    unfold removeWalls
    simp only [Cell.setWall]
    split_ifs <;> simp_all [Function.update]
  · intro h
    unfold removeWalls
    simp only [Cell.setWall]
    split_ifs <;> simp_all [Function.update]
  · intro h
    unfold removeWalls
    simp only [Cell.setWall]
    split_ifs <;> simp_all [Function.update]
  · intro h
    unfold removeWalls
    simp only [Cell.setWall]
    split_ifs <;> simp_all [Function.update]
  · intro d hd
    rw [removeWalls_of_inDirection hd]
    refine ⟨fun k => ?_, fun k => ?_⟩ <;> simp [Cell.setWall, Function.update_apply]

theorem removeWalls_spec_witness :
    (∀ k, (removeWalls (NewCell 0 0) (NewCell 1 0)).1.walls k =
        if k = 1 then false else (NewCell 0 0).walls k) ∧
    (∀ k, (removeWalls (NewCell 0 0) (NewCell 1 0)).2.walls k =
        if k = 1 + 2 then false else (NewCell 1 0).walls k) :=
  (removeWalls_spec (NewCell 0 0) (NewCell 1 0)).2.2.2.2.2 1 (by decide)

/-! ## The neighbour list -/

theorem appendUnvisited_wf {C R : Nat} {g : List Cell} (hwf : WFGrid C R g) (l : List CellRef)
    (i j : Int) :
    appendUnvisited g l (if 0 ≤ i ∧ i < C ∧ 0 ≤ j ∧ j < R then some (i + j * C).toNat else none) =
      l ++ (keepUnvisited g C R (i, j)).toList := by
  unfold appendUnvisited keepUnvisited
  by_cases hb : 0 ≤ i ∧ i < C ∧ 0 ≤ j ∧ j < R
  · simp only [if_pos hb]
    obtain ⟨c, hc, -⟩ := wf_lookup hwf hb.1 hb.2.1 hb.2.2.1 hb.2.2.2
    simp only [hc]
    cases hv : c.visited <;> simp
  · simp only [if_neg hb]
    simp

theorem filterMap_four {α β : Type} (f : α → Option β) (a b c d : α) :
    [a, b, c, d].filterMap f = (f a).toList ++ (f b).toList ++ (f c).toList ++ (f d).toList := by
  simp only [List.filterMap_cons, List.filterMap_nil]
  cases f a <;> cases f b <;> cases f c <;> cases f d <;> rfl

theorem GetNeighbors_wf {C R : Nat} {g : List Cell} (hwf : WFGrid C R g) {c : CellRef}
    {cell : Cell} (hc : g[c]? = some cell) :
    GetNeighbors c g C R =
      some (if unvisitedNeighbors g C R cell = [] then none
            else some (unvisitedNeighbors g C R cell)) := by
  unfold GetNeighbors
  simp only [hc, getCellAt_wf hwf, appendUnvisited_wf hwf]
  unfold unvisitedNeighbors directionalLookups
  rw [filterMap_four]
  simp only [List.nil_append, gt_iff_lt, List.length_pos]
  by_cases h : (keepUnvisited g C R (cell.col, cell.row - 1)).toList ++
      (keepUnvisited g C R (cell.col + 1, cell.row)).toList ++
      (keepUnvisited g C R (cell.col, cell.row + 1)).toList ++
      (keepUnvisited g C R (cell.col - 1, cell.row)).toList = []
  · rw [if_neg (not_not.2 h), if_pos h]
  · rw [if_pos h, if_neg h]

/-- C8: on a well-formed grid `GetNeighbors` returns exactly the four
directional lookups (top, right, bottom, left) filtered of the out-of-bounds
and the visited ones, in that order, and the error with a nil list exactly when
the filtered list is empty. -/
theorem GetNeighbors_spec (C R : Nat) (g : List Cell) (hwf : WFGrid C R g) (c : CellRef)
    (cell : Cell) (hc : g[c]? = some cell) :
    GetNeighbors c g C R =
      some (if unvisitedNeighbors g C R cell = [] then none
            else some (unvisitedNeighbors g C R cell)) ∧
    (GetNeighbors c g C R = some none ↔ unvisitedNeighbors g C R cell = []) := by
  have h := GetNeighbors_wf hwf hc
  refine ⟨h, ?_⟩
  rw [h]
  by_cases he : unvisitedNeighbors g C R cell = []
  · rw [if_pos he]
    exact ⟨fun _ => he, fun _ => rfl⟩
  · rw [if_neg he]
    constructor
    · intro hx
      cases hx
    · intro hx
      exact absurd hx he

theorem GetNeighbors_spec_witness :
    GetNeighbors 0 (initGrid [] ((2 : Nat) : Int) ((2 : Nat) : Int)) ((2 : Nat) : Int)
        ((2 : Nat) : Int) =
      some (if unvisitedNeighbors (initGrid [] ((2 : Nat) : Int) ((2 : Nat) : Int))
              ((2 : Nat) : Int) ((2 : Nat) : Int) (NewCell 0 0) = [] then none
            else some (unvisitedNeighbors (initGrid [] ((2 : Nat) : Int) ((2 : Nat) : Int))
              ((2 : Nat) : Int) ((2 : Nat) : Int) (NewCell 0 0))) ∧
    (GetNeighbors 0 (initGrid [] ((2 : Nat) : Int) ((2 : Nat) : Int)) ((2 : Nat) : Int)
        ((2 : Nat) : Int) = some none ↔
      unvisitedNeighbors (initGrid [] ((2 : Nat) : Int) ((2 : Nat) : Int))
        ((2 : Nat) : Int) ((2 : Nat) : Int) (NewCell 0 0) = []) :=
  GetNeighbors_spec 2 2 _ (initGrid_wf 2 2) 0 (NewCell 0 0) (by rfl)

theorem keepUnvisited_iff {C R : Nat} {g : List Cell} (hwf : WFGrid C R g) (i j : Int)
    (q : CellRef) :
    keepUnvisited g C R (i, j) = some q ↔
      ∃ b, g[q]? = some b ∧ b.col = i ∧ b.row = j ∧ b.visited = false := by
  unfold keepUnvisited
  constructor
  · intro h
    by_cases hb : 0 ≤ i ∧ i < C ∧ 0 ≤ j ∧ j < R
    · simp only [if_pos hb] at h
      obtain ⟨c, hc, h1, h2, -⟩ := wf_lookup hwf hb.1 hb.2.1 hb.2.2.1 hb.2.2.2
      simp only [hc] at h
      cases hv : c.visited
      · simp only [hv] at h
        simp only [Bool.false_eq_true, if_false, Option.some.injEq] at h
        subst h
        exact ⟨c, hc, h1, h2, hv⟩
      · simp [hv] at h
    · simp [if_neg hb] at h
  · rintro ⟨b, hb, h1, h2, hv⟩
    obtain ⟨hp, k1, k2, k3, k4, k5⟩ := wf_cell hwf hb
    have hq : (i + j * C).toNat = q := by
      rw [← h1, ← h2, k5]
      rfl
    rw [← h1, ← h2] at hq ⊢
    simp only [if_pos (And.intro k1 (And.intro k2 (And.intro k3 k4)))]
    rw [hq, hb]
    simp [hv]

theorem mem_unvisitedNeighbors {C R : Nat} {g : List Cell} (hwf : WFGrid C R g) (a : Cell)
    (q : CellRef) :
    q ∈ unvisitedNeighbors g C R a ↔
      ∃ d b, g[q]? = some b ∧ inDirection d a b ∧ b.visited = false := by
  unfold unvisitedNeighbors directionalLookups
  simp only [List.mem_filterMap, List.mem_cons, List.mem_singleton, List.not_mem_nil, or_false]
  constructor
  · rintro ⟨ij, hij, hk⟩
    rcases hij with rfl | rfl | rfl | rfl
    · obtain ⟨b, hb, h1, h2, hv⟩ := (keepUnvisited_iff hwf _ _ q).1 hk
      exact ⟨0, b, hb, ⟨by simp [dcol, h1], by simp [drow, h2]; omega⟩, hv⟩
    · obtain ⟨b, hb, h1, h2, hv⟩ := (keepUnvisited_iff hwf _ _ q).1 hk
      exact ⟨1, b, hb, ⟨by simp [dcol, h1], by simp [drow, h2]⟩, hv⟩
    · obtain ⟨b, hb, h1, h2, hv⟩ := (keepUnvisited_iff hwf _ _ q).1 hk
      exact ⟨2, b, hb, ⟨by simp [dcol, h1], by simp [drow, h2]⟩, hv⟩
    · obtain ⟨b, hb, h1, h2, hv⟩ := (keepUnvisited_iff hwf _ _ q).1 hk
      exact ⟨3, b, hb, ⟨by simp [dcol, h1]; omega, by simp [drow, h2]⟩, hv⟩
  · rintro ⟨d, b, hb, ⟨h1, h2⟩, hv⟩
    refine ⟨(a.col + dcol d, a.row + drow d), ?_, (keepUnvisited_iff hwf _ _ q).2 ⟨b, hb, h1, h2, hv⟩⟩
    fin_cases d
    · left; simp [dcol, drow]; omega
    · right; left; simp [dcol, drow]
    · right; right; left; simp [dcol, drow]
    · right; right; right; simp [dcol, drow]; omega

/-! ## One step of the generator -/

theorem wf_modifyCell {C R : Nat} {g : List Cell} (hwf : WFGrid C R g) (p : CellRef)
    (f : Cell → Cell) (hf : ∀ c, (f c).col = c.col ∧ (f c).row = c.row) :
    WFGrid C R (modifyCell g p f) := by
  refine ⟨by rw [modifyCell_length]; exact hwf.1, ?_⟩
  intro q c hc
  rw [modifyCell_getElem?] at hc
  by_cases h : q = p
  · rw [if_pos h] at hc
    cases hq : g[q]? with
    | none => simp [hq] at hc
    | some c0 =>
      simp only [hq, Option.map_some', Option.some.injEq] at hc
      subst hc
      rw [(hf c0).1, (hf c0).2]
      exact hwf.2 q c0 hq
  · rw [if_neg h] at hc
    exact hwf.2 q c hc

theorem wf_of_map {C R : Nat} {g g2 : List Cell} (hwf : WFGrid C R g) (f : CellRef → Cell → Cell)
    (hf : ∀ q c, (f q c).col = c.col ∧ (f q c).row = c.row)
    (hg : ∀ q, g2[q]? = (g[q]?).map (f q)) : WFGrid C R g2 := by
  have hlen : g2.length = g.length := by
    apply le_antisymm
    · by_contra hlt
      have h1 : g.length < g2.length := Nat.lt_of_not_le hlt
      have h2 := hg g.length
      rw [List.getElem?_eq_getElem h1, List.getElem?_eq_none (le_refl _)] at h2
      simp at h2
    · by_contra hlt
      have h1 : g2.length < g.length := Nat.lt_of_not_le hlt
      have h2 := hg g2.length
      rw [List.getElem?_eq_getElem h1, List.getElem?_eq_none (le_refl _)] at h2
      simp at h2
  refine ⟨by rw [hlen]; exact hwf.1, ?_⟩
  intro q c hc
  rw [hg q] at hc
  cases hq : g[q]? with
  | none => simp [hq] at hc
  | some c0 =>
    simp only [hq, Option.map_some', Option.some.injEq] at hc
    subst hc
    rw [(hf q c0).1, (hf q c0).2]
    exact hwf.2 q c0 hq

theorem keepUnvisited_mark {C R : Nat} {g : List Cell} (hwf : WFGrid C R g) {cur : CellRef}
    {a : Cell} (ha : g[cur]? = some a) (i j : Int) (hne : ¬ (a.col = i ∧ a.row = j)) :
    keepUnvisited (modifyCell g cur Cell.markVisited) C R (i, j) = keepUnvisited g C R (i, j) := by
  have hwf1 : WFGrid C R (modifyCell g cur Cell.markVisited) :=
    wf_modifyCell hwf cur _ (fun c => ⟨rfl, rfl⟩)
  apply Option.ext
  intro q
  simp only [Option.mem_def]
  rw [keepUnvisited_iff hwf1, keepUnvisited_iff hwf]
  by_cases hq : q = cur
  · subst hq
    rw [modifyCell_getElem?, if_pos rfl, ha]
    simp only [Option.map_some', Option.some.injEq]
    constructor
    · rintro ⟨b, rfl, -, -, hv⟩
      simp [Cell.markVisited] at hv
    · rintro ⟨b, rfl, h1, h2, -⟩
      exact absurd ⟨h1, h2⟩ hne
  · rw [modifyCell_getElem?, if_neg hq]

theorem unvisitedNeighbors_mark {C R : Nat} {g : List Cell} (hwf : WFGrid C R g) {cur : CellRef}
    {a : Cell} (ha : g[cur]? = some a) :
    unvisitedNeighbors (modifyCell g cur Cell.markVisited) C R a.markVisited =
      unvisitedNeighbors g C R a := by
  unfold unvisitedNeighbors directionalLookups
  simp only [Cell.markVisited, List.filterMap_cons, List.filterMap_nil]
  rw [keepUnvisited_mark hwf ha _ _ (by omega), keepUnvisited_mark hwf ha _ _ (by omega),
    keepUnvisited_mark hwf ha _ _ (by omega), keepUnvisited_mark hwf ha _ _ (by omega)]

theorem GetNeighbors_mark {C R : Nat} {g : List Cell} (hwf : WFGrid C R g) {cur : CellRef}
    {a : Cell} (ha : g[cur]? = some a) :
    GetNeighbors cur (modifyCell g cur Cell.markVisited) C R = GetNeighbors cur g C R := by
  have hwf1 : WFGrid C R (modifyCell g cur Cell.markVisited) :=
    wf_modifyCell hwf cur _ (fun c => ⟨rfl, rfl⟩)
  have ha1 : (modifyCell g cur Cell.markVisited)[cur]? = some a.markVisited := by
    rw [modifyCell_getElem?, if_pos rfl, ha]
    rfl
  rw [GetNeighbors_wf hwf1 ha1, GetNeighbors_wf hwf ha,
    unvisitedNeighbors_mark hwf ha]

theorem step_advance {C R : Nat} {s : State} (hwf : WFGrid C R s.grid) {a : Cell}
    (ha : s.grid[s.currentCell]? = some a) (hL : unvisitedNeighbors s.grid C R a ≠ [])
    (r : Nat) :
    ∃ t n d, step C R s r = some t ∧ Advance C R s t n d r := by
  have hlt : r % (unvisitedNeighbors s.grid C R a).length < (unvisitedNeighbors s.grid C R a).length :=
    Nat.mod_lt _ (List.length_pos.2 hL)
  obtain ⟨n, hn⟩ : ∃ n, (unvisitedNeighbors s.grid C R a)[r % (unvisitedNeighbors s.grid C R a).length]?
      = some n := ⟨_, List.getElem?_eq_getElem hlt⟩
  have hmem : n ∈ unvisitedNeighbors s.grid C R a := by
    obtain ⟨h, he⟩ := List.getElem?_eq_some.1 hn
    rw [← he]
    exact List.getElem_mem _
  obtain ⟨d, b, hb, hdir, hv⟩ := (mem_unvisitedNeighbors hwf a n).1 hmem
  have hne : n ≠ s.currentCell := by
    intro h
    rw [h, ha] at hb
    cases hb
    exact inDirection_irrefl hdir
  have hG : GetNeighbors s.currentCell (modifyCell s.grid s.currentCell Cell.markVisited) C R =
      some (some (unvisitedNeighbors s.grid C R a)) := by
    rw [GetNeighbors_mark hwf ha, GetNeighbors_wf hwf ha, if_neg hL]
  have hR : GetRandomNeighbor s.currentCell (modifyCell s.grid s.currentCell Cell.markVisited)
      C R r = some (some n) := by
    unfold GetRandomNeighbor
    rw [hG]
    simp only
    rw [hn]
  have hb1 : (modifyCell s.grid s.currentCell Cell.markVisited)[n]? = some b := by
    rw [modifyCell_getElem?, if_neg hne, hb]
  have ha1 : (modifyCell s.grid s.currentCell Cell.markVisited)[s.currentCell]? =
      some a.markVisited := by
    rw [modifyCell_getElem?, if_pos rfl, ha]
    rfl
  have hF : isFresh (modifyCell s.grid s.currentCell Cell.markVisited) (some n) = true := by
    unfold isFresh
    simp only [hb1, hv, Bool.not_false]
  have hdir1 : inDirection d a.markVisited b := hdir
  have hstep : step C R s r = some
      { grid := modifyCell (removeWallsAt (modifyCell s.grid s.currentCell Cell.markVisited)
          s.currentCell n) n Cell.markVisited,
        currentCell := n,
        backTrackStack := Stack.Push s.backTrackStack s.currentCell } := by
    unfold step
    simp only [hR, hF, if_true]
  refine ⟨_, n, d, hstep, ?_⟩
  · refine ⟨⟨a, ha, hL, hn⟩, ⟨a, b, ha, hb, hdir, hv⟩, rfl, rfl, ?_⟩
    intro q
    simp only
    rw [modifyCell_getElem?, removeWallsAt_getElem? _ _ _ _ _ ha1 hb1,
      removeWalls_of_inDirection hdir1, modifyCell_getElem?]
    unfold advanceCell
    by_cases hq : q = n
    · subst hq
      simp [hb]
    · by_cases hq2 : q = s.currentCell
      · subst hq2
        simp [hq, ha]
      · simp only [if_neg hq, if_neg hq2]
        cases s.grid[q]? <;> rfl

theorem step_retreat {C R : Nat} {s : State} (hwf : WFGrid C R s.grid) {a : Cell}
    (ha : s.grid[s.currentCell]? = some a) (hL : unvisitedNeighbors s.grid C R a = [])
    (r : Nat) :
    ∃ t, step C R s r = some t ∧ Retreat C R s t := by
  have hG : GetNeighbors s.currentCell (modifyCell s.grid s.currentCell Cell.markVisited) C R =
      some none := by
    rw [GetNeighbors_mark hwf ha, GetNeighbors_wf hwf ha, if_pos hL]
  have hR : GetRandomNeighbor s.currentCell (modifyCell s.grid s.currentCell Cell.markVisited)
      C R r = some none := by
    unfold GetRandomNeighbor
    rw [hG]
  have hgrid : ∀ q, (modifyCell s.grid s.currentCell Cell.markVisited)[q]? =
      (s.grid[q]?).map (markCell s.currentCell q) := by
    intro q
    rw [modifyCell_getElem?]
    unfold markCell
    by_cases hq : q = s.currentCell
    · simp only [if_pos hq]
    · simp only [if_neg hq]
      cases s.grid[q]? <;> rfl
  cases hst : s.backTrackStack with
  | nil =>
    have hstep : step C R s r = some
        { grid := modifyCell s.grid s.currentCell Cell.markVisited,
          currentCell := s.currentCell, backTrackStack := [] } := by
      unfold step
      simp [hR, isFresh, hst, Stack.Len]
    exact ⟨_, hstep, ⟨a, ha, hL⟩, hgrid, Or.inr ⟨hst, rfl, rfl⟩⟩
  | cons p rest =>
    have hstep : step C R s r = some
        { grid := modifyCell s.grid s.currentCell Cell.markVisited,
          currentCell := p, backTrackStack := rest } := by
      unfold step
      simp [hR, isFresh, hst, Stack.Len, Stack.Pop]
    exact ⟨_, hstep, ⟨a, ha, hL⟩, hgrid, Or.inl ⟨rest, hst, rfl⟩⟩

theorem step_cases {C R : Nat} {s : State} (hwf : WFGrid C R s.grid)
    (hcur : s.currentCell < C * R) (r : Nat) :
    ∃ t, step C R s r = some t ∧ ((∃ n d, Advance C R s t n d r) ∨ Retreat C R s t) := by
  obtain ⟨a, ha⟩ := wf_exists hwf hcur
  by_cases hL : unvisitedNeighbors s.grid C R a = []
  · obtain ⟨t, h1, h2⟩ := step_retreat hwf ha hL r
    exact ⟨t, h1, Or.inr h2⟩
  · obtain ⟨t, n, d, h1, h2⟩ := step_advance hwf ha hL r
    exact ⟨t, h1, Or.inl ⟨n, d, h2⟩⟩

/-! ## Cells after a step -/

theorem advanceCell_coords (cur n : CellRef) (d : Fin 4) (q : CellRef) (c : Cell) :
    (advanceCell cur n d q c).col = c.col ∧ (advanceCell cur n d q c).row = c.row := by
  unfold advanceCell
  split_ifs <;> exact ⟨rfl, rfl⟩

theorem advanceCell_visited (cur n : CellRef) (d : Fin 4) (q : CellRef) (c : Cell) :
    (advanceCell cur n d q c).visited = true ↔ (c.visited = true ∨ q = n ∨ q = cur) := by
  unfold advanceCell
  by_cases h1 : q = n
  · simp [Cell.markVisited, Cell.setWall, h1]
  · by_cases h2 : q = cur
    · rw [if_neg h1, if_pos h2]
      simp [Cell.markVisited, Cell.setWall, h2]
    · simp [h1, h2]

theorem advanceCell_walls {cur n : CellRef} (hne : n ≠ cur) (d : Fin 4) (q : CellRef) (c : Cell)
    (k : Fin 4) :
    (advanceCell cur n d q c).walls k = false ↔
      (c.walls k = false ∨ (q = n ∧ k = d + 2) ∨ (q = cur ∧ k = d)) := by
  unfold advanceCell
  split_ifs with h1 h2
  · subst h1
    by_cases hk : k = d + 2
    · simp [Cell.markVisited, Cell.setWall, hk]
    · simp [Cell.markVisited, Cell.setWall, hk, hne, Function.update_noteq hk]
  · subst h2
    by_cases hk : k = d
    · simp [Cell.markVisited, Cell.setWall, hk]
    · simp [Cell.markVisited, Cell.setWall, hk, h1, Function.update_noteq hk]
  · simp [h1, h2]

theorem markCell_coords (cur q : CellRef) (c : Cell) :
    (markCell cur q c).col = c.col ∧ (markCell cur q c).row = c.row := by
  unfold markCell
  split_ifs <;> exact ⟨rfl, rfl⟩

theorem markCell_visited (cur q : CellRef) (c : Cell) :
    (markCell cur q c).visited = true ↔ (c.visited = true ∨ q = cur) := by
  unfold markCell
  split_ifs with h1 <;> simp [Cell.markVisited, h1]

theorem markCell_walls (cur q : CellRef) (c : Cell) : (markCell cur q c).walls = c.walls := by
  unfold markCell
  split_ifs <;> rfl

theorem cell_of_map {g g2 : List Cell} {f : CellRef → Cell → Cell}
    (hg : ∀ q, g2[q]? = (g[q]?).map (f q)) {p : CellRef} {c2 : Cell} (h : g2[p]? = some c2) :
    ∃ c, g[p]? = some c ∧ c2 = f p c := by
  rw [hg p] at h
  cases hq : g[p]? with
  | none => simp [hq] at h
  | some c =>
    simp only [hq, Option.map_some', Option.some.injEq] at h
    exact ⟨c, rfl, h.symm⟩

theorem map_of_cell {g g2 : List Cell} {f : CellRef → Cell → Cell}
    (hg : ∀ q, g2[q]? = (g[q]?).map (f q)) {p : CellRef} {c : Cell} (h : g[p]? = some c) :
    g2[p]? = some (f p c) := by
  rw [hg p, h]
  rfl

theorem inDirection_congr {d : Fin 4} {a b a2 b2 : Cell} (ha : a2.col = a.col ∧ a2.row = a.row)
    (hb : b2.col = b.col ∧ b2.row = b.row) : inDirection d a2 b2 ↔ inDirection d a b := by
  unfold inDirection
  rw [ha.1, ha.2, hb.1, hb.2]

theorem bool_eq_of_false_iff {x y : Bool} (h : x = false ↔ y = false) : x = y := by
  cases x <;> cases y <;> simp_all

theorem visitedAt_iff {g : List Cell} {p : CellRef} :
    visitedAt g p ↔ ∃ c, g[p]? = some c ∧ c.visited = true := by
  unfold visitedAt
  cases g[p]? with
  | none => simp
  | some c => simp

theorem stuck_iff {C R : Nat} {g : List Cell} (hwf : WFGrid C R g) (a : Cell) :
    unvisitedNeighbors g C R a = [] ↔
      ∀ (q : CellRef) (b : Cell) (d : Fin 4), g[q]? = some b → inDirection d a b →
        b.visited = true := by
  constructor
  · intro h q b d hb hd
    by_contra hv
    have : q ∈ unvisitedNeighbors g C R a :=
      (mem_unvisitedNeighbors hwf a q).2 ⟨d, b, hb, hd, by simpa using hv⟩
    rw [h] at this
    exact absurd this (List.not_mem_nil _)
  · intro h
    apply List.eq_nil_iff_forall_not_mem.2
    intro q hq
    obtain ⟨d, b, hb, hd, hv⟩ := (mem_unvisitedNeighbors hwf a q).1 hq
    rw [h q b d hb hd] at hv
    cases hv

/-! ## Preservation of the invariant -/

theorem advance_ne {s t : State} {C R : Nat} {n : CellRef} {d : Fin 4} {r : Nat}
    (h : Advance C R s t n d r) : n ≠ s.currentCell := by
  obtain ⟨a, b, ha, hb, hdir, -⟩ := h.neighbour
  intro e
  rw [e, ha] at hb
  cases hb
  exact inDirection_irrefl hdir

theorem Inv_advance {C R : Nat} {s t : State} {n : CellRef} {d : Fin 4} {r : Nat}
    (hinv : Inv C R s) (h : Advance C R s t n d r) : Inv C R t := by
  obtain ⟨a, b, ha, hb, hdir, hv⟩ := h.neighbour
  have hne := advance_ne h
  have hwf : WFGrid C R t.grid :=
    wf_of_map hinv.wf _ (fun q c => advanceCell_coords s.currentCell n d q c) h.grid
  refine ⟨hwf, ?_, ?_, ?_, ?_, ?_⟩
  · rw [h.current]
    exact (wf_cell hinv.wf hb).1
  · intro p hp
    rw [h.stack] at hp
    rw [visitedAt_iff]
    rcases List.mem_cons.1 hp with e | hp
    · subst e
      exact ⟨_, map_of_cell h.grid ha, (advanceCell_visited _ _ _ _ _).2 (Or.inr (Or.inr rfl))⟩
    · obtain ⟨c, hc, hcv⟩ := visitedAt_iff.1 (hinv.stackVisited p hp)
      exact ⟨_, map_of_cell h.grid hc, (advanceCell_visited _ _ _ _ _).2 (Or.inl hcv)⟩
  · intro p a2 ha2 hv2 k
    obtain ⟨c, hc, rfl⟩ := cell_of_map h.grid ha2
    have hnv : ¬ (c.visited = true ∨ p = n ∨ p = s.currentCell) := by
      intro hh
      rw [(advanceCell_visited _ _ _ _ _).2 hh] at hv2
      cases hv2
    have h1 : p ≠ n := fun e => hnv (Or.inr (Or.inl e))
    have h2 : p ≠ s.currentCell := fun e => hnv (Or.inr (Or.inr e))
    have hcv : c.visited = false := by
      cases hx : c.visited
      · rfl
      · exact absurd (Or.inl hx) hnv
    have : advanceCell s.currentCell n d p c = c := by
      unfold advanceCell
      rw [if_neg h1, if_neg h2]
    rw [this]
    exact hinv.fresh p c hc hcv k
  · intro p q a2 b2 e ha2 hb2 hdir2
    obtain ⟨cp, hcp, rfl⟩ := cell_of_map h.grid ha2
    obtain ⟨cq, hcq, rfl⟩ := cell_of_map h.grid hb2
    have hdir3 : inDirection e cp cq :=
      (inDirection_congr (advanceCell_coords _ _ _ _ _) (advanceCell_coords _ _ _ _ _)).1 hdir2
    apply bool_eq_of_false_iff
    rw [advanceCell_walls hne, advanceCell_walls hne, hinv.sym p q cp cq e hcp hcq hdir3]
    have key1 : (p = n ∧ e = d + 2) ↔ (q = s.currentCell ∧ e + 2 = d) := by
      constructor
      · rintro ⟨rfl, rfl⟩
        rw [hb] at hcp
        cases hcp
        have h3 := inDirection_opp hdir
        refine ⟨?_, opp_opp d⟩
        exact wf_same_coords hinv.wf hcq ha (by unfold inDirection at *; omega)
          (by unfold inDirection at *; omega)
      · rintro ⟨rfl, rfl⟩
        rw [ha] at hcq
        cases hcq
        have h3 := inDirection_opp hdir3
        refine ⟨?_, (opp_opp e).symm⟩
        have h4 := inDirection_opp hdir3
        exact wf_same_coords hinv.wf hcp hb (by unfold inDirection at *; omega)
          (by unfold inDirection at *; omega)
    have key2 : (p = s.currentCell ∧ e = d) ↔ (q = n ∧ e + 2 = d + 2) := by
      constructor
      · rintro ⟨rfl, rfl⟩
        rw [ha] at hcp
        cases hcp
        refine ⟨?_, rfl⟩
        exact wf_same_coords hinv.wf hcq hb (by unfold inDirection at *; omega)
          (by unfold inDirection at *; omega)
      · rintro ⟨rfl, he⟩
        have he2 : e = d := by
          have := congrArg (fun x => x + 2) he
          simpa [opp_opp] using this
        subst he2
        rw [hb] at hcq
        cases hcq
        refine ⟨?_, rfl⟩
        exact wf_same_coords hinv.wf hcp ha (by unfold inDirection at *; omega)
          (by unfold inDirection at *; omega)
    rw [key1, key2]
    exact ⟨fun h => h.elim Or.inl
        (fun h => h.elim (fun x => Or.inr (Or.inr x)) (fun x => Or.inr (Or.inl x))),
      fun h => h.elim Or.inl
        (fun h => h.elim (fun x => Or.inr (Or.inr x)) (fun x => Or.inr (Or.inl x)))⟩
  · intro p q a2 b2 e ha2 hb2 hdir2 hv2 hps hpc
    obtain ⟨cp, hcp, rfl⟩ := cell_of_map h.grid ha2
    obtain ⟨cq, hcq, rfl⟩ := cell_of_map h.grid hb2
    have hdir3 : inDirection e cp cq :=
      (inDirection_congr (advanceCell_coords _ _ _ _ _) (advanceCell_coords _ _ _ _ _)).1 hdir2
    rw [h.stack] at hps
    rw [h.current] at hpc
    have h1 : p ≠ s.currentCell := fun e => hps (by rw [e]; exact List.mem_cons_self _ _)
    have h2 : p ∉ s.backTrackStack := fun e => hps (List.mem_cons_of_mem _ e)
    have hcv : cp.visited = true := by
      rcases (advanceCell_visited _ _ _ _ _).1 hv2 with h3 | h3 | h3
      · exact h3
      · exact absurd h3 hpc
      · exact absurd h3 h1
    exact (advanceCell_visited _ _ _ _ _).2
      (Or.inl (hinv.closed p q cp cq e hcp hcq hdir3 hcv h2 h1))

theorem Inv_retreat {C R : Nat} {s t : State} (hinv : Inv C R s) (h : Retreat C R s t) :
    Inv C R t := by
  obtain ⟨a, ha, hstuck⟩ := h.stuck
  have hall := (stuck_iff hinv.wf a).1 hstuck
  have hwf : WFGrid C R t.grid :=
    wf_of_map hinv.wf _ (fun q c => markCell_coords s.currentCell q c) h.grid
  have hvis : ∀ p, visitedAt s.grid p → visitedAt t.grid p := by
    intro p hp
    obtain ⟨c, hc, hcv⟩ := visitedAt_iff.1 hp
    exact visitedAt_iff.2 ⟨_, map_of_cell h.grid hc, (markCell_visited _ _ _).2 (Or.inl hcv)⟩
  have hsub : ∀ p ∈ t.backTrackStack, p ∈ s.backTrackStack := by
    intro p hp
    rcases h.move with ⟨rest, h1, h2⟩ | ⟨h1, h2, -⟩
    · rw [h1]
      rw [h2] at hp
      exact List.mem_cons_of_mem _ hp
    · rw [h2] at hp
      exact absurd hp (List.not_mem_nil _)
  refine ⟨hwf, ?_, ?_, ?_, ?_, ?_⟩
  · rcases h.move with ⟨rest, h1, -⟩ | ⟨-, -, h3⟩
    · have hm : t.currentCell ∈ s.backTrackStack := by
        rw [h1]
        exact List.mem_cons_self _ _
      obtain ⟨c, hc, -⟩ := visitedAt_iff.1 (hinv.stackVisited _ hm)
      exact (wf_cell hinv.wf hc).1
    · rw [h3]
      exact hinv.cur
  · intro p hp
    exact hvis p (hinv.stackVisited p (hsub p hp))
  · intro p a2 ha2 hv2 k
    obtain ⟨c, hc, rfl⟩ := cell_of_map h.grid ha2
    rw [markCell_walls]
    have hcv : c.visited = false := by
      cases hx : c.visited
      · rfl
      · rw [(markCell_visited _ _ _).2 (Or.inl hx)] at hv2
        cases hv2
    exact hinv.fresh p c hc hcv k
  · intro p q a2 b2 e ha2 hb2 hdir2
    obtain ⟨cp, hcp, rfl⟩ := cell_of_map h.grid ha2
    obtain ⟨cq, hcq, rfl⟩ := cell_of_map h.grid hb2
    have hdir3 : inDirection e cp cq :=
      (inDirection_congr (markCell_coords _ _ _) (markCell_coords _ _ _)).1 hdir2
    rw [markCell_walls, markCell_walls]
    exact hinv.sym p q cp cq e hcp hcq hdir3
  · intro p q a2 b2 e ha2 hb2 hdir2 hv2 hps hpc
    obtain ⟨cp, hcp, rfl⟩ := cell_of_map h.grid ha2
    obtain ⟨cq, hcq, rfl⟩ := cell_of_map h.grid hb2
    have hdir3 : inDirection e cp cq :=
      (inDirection_congr (markCell_coords _ _ _) (markCell_coords _ _ _)).1 hdir2
    apply (markCell_visited _ _ _).2
    by_cases hp : p = s.currentCell
    · subst hp
      rw [ha] at hcp
      cases hcp
      exact Or.inl (hall q cq e hcq hdir3)
    · have hcv : cp.visited = true := by
        rcases (markCell_visited _ _ _).1 hv2 with h3 | h3
        · exact h3
        · exact absurd h3 hp
      have hns : p ∉ s.backTrackStack := by
        rcases h.move with ⟨rest, h1, h2⟩ | ⟨h1, -, -⟩
        · rw [h1]
          intro hm
          rcases List.mem_cons.1 hm with e1 | e1
          · exact hpc e1
          · rw [h2] at hps
            exact hps e1
        · rw [h1]
          exact List.not_mem_nil _
      exact Or.inl (hinv.closed p q cp cq e hcp hcq hdir3 hcv hns hp)

theorem Inv_step {C R : Nat} {s : State} (hinv : Inv C R s) (r : Nat) :
    ∃ t, step C R s r = some t ∧ Inv C R t := by
  obtain ⟨t, h1, h2⟩ := step_cases hinv.wf hinv.cur r
  refine ⟨t, h1, ?_⟩
  rcases h2 with ⟨n, d, h⟩ | h
  · exact Inv_advance hinv h
  · exact Inv_retreat hinv h

theorem initState_eq {C R : Nat} (hC : 1 ≤ C) (hR : 1 ≤ R) :
    initState C R = some
      { grid := initGrid [] (C : Int) (R : Int), currentCell := 0, backTrackStack := [] } := by
  unfold initState
  have : 0 < (initGrid [] (C : Int) (R : Int)).length := by
    rw [initGrid_length]
    exact Nat.mul_pos hC hR
  simp only [this, if_true]
  rfl

theorem initGrid_cell {C R : Nat} {p : CellRef} {c : Cell}
    (h : (initGrid [] (C : Int) (R : Int))[p]? = some c) :
    c.visited = false ∧ ∀ k, c.walls k = true := by
  have hp : p < C * R := by
    have := (List.getElem?_eq_some.1 h).1
    rwa [initGrid_length] at this
  rw [initGrid_getElem? C R p hp] at h
  cases h
  exact ⟨rfl, fun k => rfl⟩

theorem Inv_init {C R : Nat} (hC : 1 ≤ C) (hR : 1 ≤ R) :
    Inv C R { grid := initGrid [] (C : Int) (R : Int), currentCell := 0, backTrackStack := [] } := by
  refine ⟨initGrid_wf C R, Nat.mul_pos hC hR, ?_, ?_, ?_, ?_⟩
  · intro p hp
    exact absurd hp (List.not_mem_nil _)
  · intro p a ha _ k
    exact (initGrid_cell ha).2 k
  · intro p q a b d ha hb _
    rw [(initGrid_cell ha).2, (initGrid_cell hb).2]
  · intro p q a b d ha hb _ hv
    rw [(initGrid_cell ha).1] at hv
    cases hv

theorem run_inv {C R : Nat} (hC : 1 ≤ C) (hR : 1 ≤ R) (rs : Nat → Nat) (k : Nat) :
    ∃ s, run C R rs k = some s ∧ Inv C R s := by
  induction k with
  | zero => exact ⟨_, initState_eq hC hR, Inv_init hC hR⟩
  | succ k ih =>
    obtain ⟨s, hs, hinv⟩ := ih
    obtain ⟨t, ht, hinv2⟩ := Inv_step hinv (rs k)
    refine ⟨t, ?_, hinv2⟩
    simp only [run, hs]
    exact ht

/-! ## The grid graph is connected -/

theorem grid_closure {C R : Nat} {g : List Cell} (hwf : WFGrid C R g) (P : CellRef → Prop)
    (hclosed : ∀ (p q : CellRef) (a b : Cell) (d : Fin 4), g[p]? = some a → g[q]? = some b →
      inDirection d a b → P p → P q)
    {p0 : CellRef} {a0 : Cell} (h0 : g[p0]? = some a0) (hP : P p0) :
    ∀ q, q < C * R → P q := by
  have key : ∀ n : Nat, ∀ (q : CellRef) (b : Cell), g[q]? = some b →
      (b.col - a0.col).natAbs + (b.row - a0.row).natAbs ≤ n → P q := by
    intro n
    induction n with
    | zero =>
      intro q b hb hd
      have e : p0 = q := wf_same_coords hwf h0 hb (by omega) (by omega)
      rw [← e]
      exact hP
    | succ n ih =>
      intro q b hb hd
      obtain ⟨-, b1, b2, b3, b4, -⟩ := wf_cell hwf hb
      obtain ⟨-, a1, a2, a3, a4, -⟩ := wf_cell hwf h0
      by_cases hc : b.col = a0.col
      · by_cases hr : b.row = a0.row
        · have e : p0 = q := wf_same_coords hwf h0 hb hc.symm hr.symm
          rw [← e]
          exact hP
        · by_cases hlt : a0.row < b.row
          · obtain ⟨c, hcc, c1, c2, -⟩ :=
              wf_lookup hwf (i := b.col) (j := b.row - 1) b1 b2 (by omega) (by omega)
            have hPc := ih _ c hcc (by rw [c1, c2]; omega)
            refine hclosed _ q c b 2 hcc hb ⟨?_, ?_⟩ hPc
            · rw [c1]; simp [dcol]
            · rw [c2]; simp [drow]
          · obtain ⟨c, hcc, c1, c2, -⟩ :=
              wf_lookup hwf (i := b.col) (j := b.row + 1) b1 b2 (by omega) (by omega)
            have hPc := ih _ c hcc (by rw [c1, c2]; omega)
            refine hclosed _ q c b 0 hcc hb ⟨?_, ?_⟩ hPc
            · rw [c1]; simp [dcol]
            · rw [c2]; simp [drow]
      · by_cases hlt : a0.col < b.col
        · obtain ⟨c, hcc, c1, c2, -⟩ :=
            wf_lookup hwf (i := b.col - 1) (j := b.row) (by omega) (by omega) b3 b4
          have hPc := ih _ c hcc (by rw [c1, c2]; omega)
          refine hclosed _ q c b 1 hcc hb ⟨?_, ?_⟩ hPc
          · rw [c1]; simp [dcol]
          · rw [c2]; simp [drow]
        · obtain ⟨c, hcc, c1, c2, -⟩ :=
            wf_lookup hwf (i := b.col + 1) (j := b.row) (by omega) (by omega) b3 b4
          have hPc := ih _ c hcc (by rw [c1, c2]; omega)
          refine hclosed _ q c b 3 hcc hb ⟨?_, ?_⟩ hPc
          · rw [c1]; simp [dcol]
          · rw [c2]; simp [drow]
  intro q hq
  obtain ⟨b, hb⟩ := wf_exists hwf hq
  exact key _ q b hb (le_refl _)

theorem isDone_iff {C R : Nat} {s : State} (hwf : WFGrid C R s.grid) {a : Cell}
    (ha : s.grid[s.currentCell]? = some a) :
    isDone C R s ↔ (unvisitedNeighbors s.grid C R a = [] ∧ s.backTrackStack = []) := by
  unfold isDone
  rw [GetNeighbors_wf hwf ha]
  unfold Stack.Len
  by_cases h : unvisitedNeighbors s.grid C R a = []
  · simp [h, List.length_eq_zero]
  · simp [h]

theorem done_all {C R : Nat} {s : State} (hinv : Inv C R s) (hdone : isDone C R s) :
    ∀ p, p < C * R → (visitedAt s.grid p ∨ p = s.currentCell) := by
  obtain ⟨a, ha⟩ := wf_exists hinv.wf hinv.cur
  obtain ⟨hstuck, hstack⟩ := (isDone_iff hinv.wf ha).1 hdone
  have hall := (stuck_iff hinv.wf a).1 hstuck
  refine grid_closure hinv.wf (fun p => visitedAt s.grid p ∨ p = s.currentCell) ?_ ha (Or.inr rfl)
  intro p q ca cb d hca hcb hdir hp
  left
  rw [visitedAt_iff]
  refine ⟨cb, hcb, ?_⟩
  by_cases hpc : p = s.currentCell
  · subst hpc
    rw [ha] at hca
    cases hca
    exact hall q cb d hcb hdir
  · rcases hp with hp | hp
    · obtain ⟨c, hc, hcv⟩ := visitedAt_iff.1 hp
      rw [hca] at hc
      cases hc
      exact hinv.closed p q ca cb d hca hcb hdir hcv (by rw [hstack]; exact List.not_mem_nil _) hpc
    · exact absurd hp hpc

theorem advance_current_visited {C R : Nat} {s t : State} {n : CellRef} {d : Fin 4} {r : Nat}
    (h : Advance C R s t n d r) : visitedAt t.grid t.currentCell := by
  obtain ⟨a, b, ha, hb, -, -⟩ := h.neighbour
  rw [h.current, visitedAt_iff]
  exact ⟨_, map_of_cell h.grid hb, (advanceCell_visited _ _ _ _ _).2 (Or.inr (Or.inl rfl))⟩

theorem retreat_current_visited {C R : Nat} {s t : State} (hinv : Inv C R s)
    (h : Retreat C R s t) : visitedAt t.grid t.currentCell := by
  obtain ⟨a, ha, -⟩ := h.stuck
  rw [visitedAt_iff]
  rcases h.move with ⟨rest, h1, -⟩ | ⟨-, -, h3⟩
  · have hm : t.currentCell ∈ s.backTrackStack := by
      rw [h1]
      exact List.mem_cons_self _ _
    obtain ⟨c, hc, hcv⟩ := visitedAt_iff.1 (hinv.stackVisited _ hm)
    exact ⟨_, map_of_cell h.grid hc, (markCell_visited _ _ _).2 (Or.inl hcv)⟩
  · rw [h3]
    exact ⟨_, map_of_cell h.grid ha, (markCell_visited _ _ _).2 (Or.inr rfl)⟩

theorem run_succ_current_visited {C R : Nat} (hC : 1 ≤ C) (hR : 1 ≤ R) (rs : Nat → Nat)
    (k : Nat) : ∃ s, run C R rs (k + 1) = some s ∧ Inv C R s ∧ visitedAt s.grid s.currentCell := by
  obtain ⟨s, hs, hinv⟩ := run_inv hC hR rs k
  obtain ⟨t, h1, h2⟩ := step_cases hinv.wf hinv.cur (rs k)
  have hrun : run C R rs (k + 1) = some t := by
    simp only [run, hs]
    exact h1
  rcases h2 with ⟨n, d, h⟩ | h
  · exact ⟨t, hrun, Inv_advance hinv h, advance_current_visited h⟩
  · exact ⟨t, hrun, Inv_retreat hinv h, retreat_current_visited hinv h⟩

/-- C4: in a done state reached after at least one step every cell of the grid
has been visited. -/
theorem done_all_visited (C R : Nat) (hC : 1 ≤ C) (hR : 1 ≤ R) (rs : Nat → Nat) (k : Nat) :
    ∃ s, run C R rs (k + 1) = some s ∧
      (isDone C R s → s.grid.length = C * R ∧ ∀ c ∈ s.grid, c.visited = true) := by
  obtain ⟨s, hs, hinv, hcur⟩ := run_succ_current_visited hC hR rs k
  refine ⟨s, hs, fun hdone => ⟨hinv.wf.1, ?_⟩⟩
  intro c hc
  obtain ⟨p, hp, hpc⟩ := List.getElem_of_mem hc
  have hpc2 : s.grid[p]? = some c := by
    rw [List.getElem?_eq_getElem hp, hpc]
  have hlt : p < C * R := by
    rw [← hinv.wf.1]
    exact hp
  rcases done_all hinv hdone p hlt with h | h
  · obtain ⟨c2, hc2, hv⟩ := visitedAt_iff.1 h
    rw [hpc2] at hc2
    cases hc2
    exact hv
  · subst h
    obtain ⟨c2, hc2, hv⟩ := visitedAt_iff.1 hcur
    rw [hpc2] at hc2
    cases hc2
    exact hv

theorem done_all_visited_witness :
    ∃ s, run ((2 : Nat) : Int) ((1 : Nat) : Int) (fun _ => 0) (1 + 1) = some s ∧
      (isDone ((2 : Nat) : Int) ((1 : Nat) : Int) s →
        s.grid.length = 2 * 1 ∧ ∀ c ∈ s.grid, c.visited = true) :=
  done_all_visited 2 1 (by decide) (by decide) (fun _ => 0) 1

/-- C5: wall symmetry.  In every state reached by the generator, whenever the
cell `b` lies in direction `d` from the cell `a`, the wall `d` of `a` equals
the facing wall `d + 2 (mod 4)` of `b`. -/
theorem wall_symmetry (C R : Nat) (hC : 1 ≤ C) (hR : 1 ≤ R) (rs : Nat → Nat) (k : Nat) :
    ∃ s, run C R rs k = some s ∧
      ∀ (p q : CellRef) (a b : Cell) (d : Fin 4), s.grid[p]? = some a → s.grid[q]? = some b →
        inDirection d a b → a.walls d = b.walls (d + 2) := by
  obtain ⟨s, hs, hinv⟩ := run_inv hC hR rs k
  exact ⟨s, hs, hinv.sym⟩

theorem wall_symmetry_witness :
    ∃ s, run ((2 : Nat) : Int) ((2 : Nat) : Int) (fun _ => 0) 3 = some s ∧
      ∀ (p q : CellRef) (a b : Cell) (d : Fin 4), s.grid[p]? = some a → s.grid[q]? = some b →
        inDirection d a b → a.walls d = b.walls (d + 2) :=
  wall_symmetry 2 2 (by decide) (by decide) (fun _ => 0) 3

/-! ## The advancing step -/

theorem GetNeighbors_some {C R : Nat} {g : List Cell} (hwf : WFGrid C R g) {c : CellRef}
    {a : Cell} (ha : g[c]? = some a) {L : List CellRef}
    (hL : GetNeighbors c g C R = some (some L)) :
    L = unvisitedNeighbors g C R a ∧ unvisitedNeighbors g C R a ≠ [] := by
  rw [GetNeighbors_wf hwf ha] at hL
  by_cases h : unvisitedNeighbors g C R a = []
  · rw [if_pos h] at hL
    cases hL
  · rw [if_neg h] at hL
    simp only [Option.some.injEq] at hL
    exact ⟨hL.symm, h⟩

/-- C6: the advancing step.  In a reachable state whose current cell has the
non-empty unvisited-neighbour list `L`, a step with the random outcome `r < len L`
pushes the old current cell on the stack, makes `L[r]` the current cell, marks
it visited, clears the two wall flags facing each other between the two cells,
and leaves every other wall flag, every other visited flag (apart from the
old current cell, which is marked visited) and all coordinates as they were. -/
theorem advance_step (C R : Nat) (hC : 1 ≤ C) (hR : 1 ≤ R) (rs : Nat → Nat) (k : Nat)
    (s : State) (hs : run C R rs k = some s) (L : List CellRef)
    (hL : GetNeighbors s.currentCell s.grid C R = some (some L)) (r : Nat) (hr : r < L.length) :
    ∃ (t : State) (n : CellRef) (d : Fin 4) (a b : Cell),
      step C R s r = some t ∧ L[r]? = some n ∧
      t.backTrackStack = s.backTrackStack.Push s.currentCell ∧
      t.currentCell = n ∧
      s.grid[s.currentCell]? = some a ∧ s.grid[n]? = some b ∧
      inDirection d a b ∧ b.visited = false ∧ n ≠ s.currentCell ∧
      t.grid.length = s.grid.length ∧
      ∀ (q : CellRef) (c : Cell), s.grid[q]? = some c →
        ∃ c2, t.grid[q]? = some c2 ∧ c2.col = c.col ∧ c2.row = c.row ∧
          (c2.visited = true ↔ (c.visited = true ∨ q = n ∨ q = s.currentCell)) ∧
          ∀ e, c2.walls e =
            (if (q = s.currentCell ∧ e = d) ∨ (q = n ∧ e = d + 2) then false else c.walls e) := by
  obtain ⟨s2, hs2, hinv⟩ := run_inv hC hR rs k
  rw [hs] at hs2
  cases hs2
  obtain ⟨a, ha⟩ := wf_exists hinv.wf hinv.cur
  obtain ⟨hLe, hLne⟩ := GetNeighbors_some hinv.wf ha hL
  obtain ⟨t, n, d, hstep, hadv⟩ := step_advance hinv.wf ha hLne r
  obtain ⟨a2, b, ha2, hb, hdir, hv⟩ := hadv.neighbour
  have hne := advance_ne hadv
  obtain ⟨a3, ha3, -, hn⟩ := hadv.chosen
  rw [ha] at ha3
  cases ha3
  rw [← hLe, Nat.mod_eq_of_lt hr] at hn
  have hinv2 := Inv_advance hinv hadv
  refine ⟨t, n, d, a2, b, hstep, hn, hadv.stack, hadv.current, ha2, hb, hdir, hv, hne, ?_, ?_⟩
  · rw [hinv2.wf.1, hinv.wf.1]
  · intro q c hc
    refine ⟨_, map_of_cell hadv.grid hc, (advanceCell_coords _ _ _ _ _).1,
      (advanceCell_coords _ _ _ _ _).2, advanceCell_visited _ _ _ _ _, ?_⟩
    intro e
    apply bool_eq_of_false_iff
    rw [advanceCell_walls hne]
    by_cases hcond : (q = s.currentCell ∧ e = d) ∨ (q = n ∧ e = d + 2)
    · rw [if_pos hcond]
      simp only [iff_true]
      rcases hcond with h | h
      · exact Or.inr (Or.inr h)
      · exact Or.inr (Or.inl h)
    · rw [if_neg hcond]
      constructor
      · rintro (h | h | h)
        · exact h
        · exact absurd (Or.inr h) hcond
        · exact absurd (Or.inl h) hcond
      · exact Or.inl

theorem advance_step_witness :
    ∃ (t : State) (n : CellRef) (d : Fin 4) (a b : Cell),
      step ((2 : Nat) : Int) ((2 : Nat) : Int)
        { grid := initGrid [] ((2 : Nat) : Int) ((2 : Nat) : Int), currentCell := 0,
          backTrackStack := [] } 1 = some t ∧
      [1, 2][1]? = some n ∧
      t.backTrackStack = Stack.Push [] 0 ∧
      t.currentCell = n ∧
      (initGrid [] ((2 : Nat) : Int) ((2 : Nat) : Int))[0]? = some a ∧
      (initGrid [] ((2 : Nat) : Int) ((2 : Nat) : Int))[n]? = some b ∧
      inDirection d a b ∧ b.visited = false ∧ n ≠ 0 ∧
      t.grid.length = (initGrid [] ((2 : Nat) : Int) ((2 : Nat) : Int)).length ∧
      ∀ (q : CellRef) (c : Cell), (initGrid [] ((2 : Nat) : Int) ((2 : Nat) : Int))[q]? = some c →
        ∃ c2, t.grid[q]? = some c2 ∧ c2.col = c.col ∧ c2.row = c.row ∧
          (c2.visited = true ↔ (c.visited = true ∨ q = n ∨ q = 0)) ∧
          ∀ e, c2.walls e =
            (if (q = 0 ∧ e = d) ∨ (q = n ∧ e = d + 2) then false else c.walls e) :=
  advance_step 2 2 (by decide) (by decide) (fun _ => 0) 0
    { grid := initGrid [] ((2 : Nat) : Int) ((2 : Nat) : Int), currentCell := 0,
      backTrackStack := [] } (by rfl) [1, 2] (by rfl) 1 (by decide)

/-! ## Termination -/

theorem advance_visitedAt {C R : Nat} {s t : State} {n : CellRef} {d : Fin 4} {r : Nat}
    (hwf : WFGrid C R s.grid) (h : Advance C R s t n d r) {p : CellRef} (hp : p < C * R) :
    visitedAt t.grid p ↔ (visitedAt s.grid p ∨ p = n ∨ p = s.currentCell) := by
  obtain ⟨c, hc⟩ := wf_exists hwf hp
  rw [visitedAt_iff, visitedAt_iff]
  constructor
  · rintro ⟨c2, hc2, hv⟩
    rw [map_of_cell h.grid hc] at hc2
    cases hc2
    rcases (advanceCell_visited _ _ _ _ _).1 hv with h1 | h1 | h1
    · exact Or.inl ⟨c, hc, h1⟩
    · exact Or.inr (Or.inl h1)
    · exact Or.inr (Or.inr h1)
  · intro hh
    refine ⟨_, map_of_cell h.grid hc, (advanceCell_visited _ _ _ _ _).2 ?_⟩
    rcases hh with ⟨c2, hc2, hv⟩ | h1 | h1
    · rw [hc] at hc2
      cases hc2
      exact Or.inl hv
    · exact Or.inr (Or.inl h1)
    · exact Or.inr (Or.inr h1)

theorem retreat_visitedAt {C R : Nat} {s t : State} (hwf : WFGrid C R s.grid)
    (h : Retreat C R s t) {p : CellRef} (hp : p < C * R) :
    visitedAt t.grid p ↔ (visitedAt s.grid p ∨ p = s.currentCell) := by
  obtain ⟨c, hc⟩ := wf_exists hwf hp
  rw [visitedAt_iff, visitedAt_iff]
  constructor
  · rintro ⟨c2, hc2, hv⟩
    rw [map_of_cell h.grid hc] at hc2
    cases hc2
    rcases (markCell_visited _ _ _).1 hv with h1 | h1
    · exact Or.inl ⟨c, hc, h1⟩
    · exact Or.inr h1
  · intro hh
    refine ⟨_, map_of_cell h.grid hc, (markCell_visited _ _ _).2 ?_⟩
    rcases hh with ⟨c2, hc2, hv⟩ | h1
    · rw [hc] at hc2
      cases hc2
      exact Or.inl hv
    · exact Or.inr h1

theorem unvisitedOthers_advance {C R : Nat} {s t : State} {n : CellRef} {d : Fin 4} {r : Nat}
    (hinv : Inv C R s) (h : Advance C R s t n d r) :
    unvisitedOthers t + 1 = unvisitedOthers s := by
  obtain ⟨a, b, ha, hb, hdir, hv⟩ := h.neighbour
  have hne := advance_ne h
  have hinv2 := Inv_advance hinv h
  have hn : n < C * R := (wf_cell hinv.wf hb).1
  have hmem : n ∈ (Finset.range s.grid.length).filter
      (fun p => ¬ visitedAt s.grid p ∧ p ≠ s.currentCell) := by
    rw [Finset.mem_filter, Finset.mem_range, hinv.wf.1]
    refine ⟨hn, ?_, hne⟩
    rw [visitedAt_iff]
    rintro ⟨c, hc, hcv⟩
    rw [hb] at hc
    cases hc
    rw [hv] at hcv
    cases hcv
  have hset : (Finset.range t.grid.length).filter
      (fun p => ¬ visitedAt t.grid p ∧ p ≠ t.currentCell) =
      ((Finset.range s.grid.length).filter
        (fun p => ¬ visitedAt s.grid p ∧ p ≠ s.currentCell)).erase n := by
    ext p
    simp only [Finset.mem_filter, Finset.mem_range, Finset.mem_erase, hinv.wf.1, hinv2.wf.1,
      h.current]
    constructor
    · rintro ⟨hp, hnv, hpn⟩
      rw [advance_visitedAt hinv.wf h hp] at hnv
      exact ⟨hpn, hp, fun hh => hnv (Or.inl hh), fun hh => hnv (Or.inr (Or.inr hh))⟩
    · rintro ⟨hpn, hp, hnv, hpc⟩
      refine ⟨hp, ?_, hpn⟩
      rw [advance_visitedAt hinv.wf h hp]
      rintro (hh | hh | hh)
      · exact hnv hh
      · exact hpn hh
      · exact hpc hh
  unfold unvisitedOthers
  rw [hset, Finset.card_erase_of_mem hmem]
  have : 0 < ((Finset.range s.grid.length).filter
      (fun p => ¬ visitedAt s.grid p ∧ p ≠ s.currentCell)).card := Finset.card_pos.2 ⟨n, hmem⟩
  omega

theorem unvisitedOthers_retreat {C R : Nat} {s t : State} (hinv : Inv C R s)
    (h : Retreat C R s t) (hcur : visitedAt s.grid t.currentCell ∨ t.currentCell = s.currentCell) :
    unvisitedOthers t = unvisitedOthers s := by
  have hinv2 := Inv_retreat hinv h
  unfold unvisitedOthers
  congr 1
  ext p
  simp only [Finset.mem_filter, Finset.mem_range, hinv.wf.1, hinv2.wf.1]
  constructor
  · rintro ⟨hp, hnv, hpn⟩
    rw [retreat_visitedAt hinv.wf h hp] at hnv
    exact ⟨hp, fun hh => hnv (Or.inl hh), fun hh => hnv (Or.inr hh)⟩
  · rintro ⟨hp, hnv, hpc⟩
    refine ⟨hp, ?_, ?_⟩
    · rw [retreat_visitedAt hinv.wf h hp]
      rintro (hh | hh)
      · exact hnv hh
      · exact hpc hh
    · intro e
      rcases hcur with hh | hh
      · rw [← e] at hh
        exact hnv hh
      · rw [← e] at hh
        exact hpc hh

theorem retreat_target {C R : Nat} {s t : State} (hinv : Inv C R s) (h : Retreat C R s t) :
    visitedAt s.grid t.currentCell ∨ t.currentCell = s.currentCell := by
  rcases h.move with ⟨rest, h1, -⟩ | ⟨-, -, h3⟩
  · left
    apply hinv.stackVisited
    rw [h1]
    exact List.mem_cons_self _ _
  · exact Or.inr h3

theorem potential_step {C R : Nat} {s : State} (hinv : Inv C R s) (hnd : ¬ isDone C R s)
    (r : Nat) : ∃ t, step C R s r = some t ∧ Inv C R t ∧ potential t + 1 = potential s := by
  obtain ⟨t, h1, h2⟩ := step_cases hinv.wf hinv.cur r
  refine ⟨t, h1, ?_⟩
  rcases h2 with ⟨n, d, h⟩ | h
  · refine ⟨Inv_advance hinv h, ?_⟩
    have := unvisitedOthers_advance hinv h
    unfold potential
    rw [h.stack, List.length_cons]
    omega
  · refine ⟨Inv_retreat hinv h, ?_⟩
    have hu := unvisitedOthers_retreat hinv h (retreat_target hinv h)
    obtain ⟨a, ha, hstuck⟩ := h.stuck
    unfold potential
    rcases h.move with ⟨rest, h3, h4⟩ | ⟨h3, -, -⟩
    · rw [hu, h3, h4, List.length_cons]
      omega
    · exact absurd ((isDone_iff hinv.wf ha).2 ⟨hstuck, h3⟩) hnd

theorem potential_init {C R : Nat} (hC : 1 ≤ C) (hR : 1 ≤ R) :
    potential { grid := initGrid [] (C : Int) (R : Int), currentCell := 0, backTrackStack := [] }
      = 2 * (C * R - 1) := by
  unfold potential unvisitedOthers
  simp only [List.length_nil, Nat.add_zero, initGrid_length]
  have hset : (Finset.range (C * R)).filter
      (fun p => ¬ visitedAt (initGrid [] (C : Int) (R : Int)) p ∧ p ≠ 0) =
      (Finset.range (C * R)).erase 0 := by
    ext p
    simp only [Finset.mem_filter, Finset.mem_range, Finset.mem_erase]
    constructor
    · rintro ⟨hp, -, hp0⟩
      exact ⟨hp0, hp⟩
    · rintro ⟨hp0, hp⟩
      refine ⟨hp, ?_, hp0⟩
      rw [visitedAt_iff]
      rintro ⟨c, hc, hcv⟩
      rw [(initGrid_cell hc).1] at hcv
      cases hcv
  rw [hset, Finset.card_erase_of_mem (by rw [Finset.mem_range]; exact Nat.mul_pos hC hR),
    Finset.card_range]

theorem run_potential {C R : Nat} (hC : 1 ≤ C) (hR : 1 ≤ R) (rs : Nat → Nat) (k : Nat) :
    ∃ s, run C R rs k = some s ∧ Inv C R s ∧
      ((∃ j sj, j < k ∧ run C R rs j = some sj ∧ isDone C R sj) ∨
        potential s + k = 2 * (C * R - 1)) := by
  induction k with
  | zero =>
    refine ⟨_, initState_eq hC hR, Inv_init hC hR, Or.inr ?_⟩
    rw [potential_init hC hR]
    rfl
  | succ k ih =>
    obtain ⟨s, hs, hinv, hcase⟩ := ih
    by_cases hd : isDone C R s
    · obtain ⟨t, ht, hinv2⟩ := Inv_step hinv (rs k)
      refine ⟨t, ?_, hinv2, Or.inl ⟨k, s, Nat.lt_succ_self k, hs, hd⟩⟩
      simp only [run, hs]
      exact ht
    · obtain ⟨t, ht, hinv2, hpot⟩ := potential_step hinv hd (rs k)
      refine ⟨t, ?_, hinv2, ?_⟩
      · simp only [run, hs]
        exact ht
      · rcases hcase with ⟨j, sj, hj, hsj, hdj⟩ | hp
        · exact Or.inl ⟨j, sj, Nat.lt_succ_of_lt hj, hsj, hdj⟩
        · right
          omega

theorem done_step {C R : Nat} {s : State} (hinv : Inv C R s) (hd : isDone C R s) (r : Nat) :
    ∃ t, step C R s r = some t ∧ Inv C R t ∧ t.currentCell = s.currentCell ∧
      t.backTrackStack = s.backTrackStack ∧ isDone C R t ∧
      ∀ q, t.grid[q]? = (s.grid[q]?).map (markCell s.currentCell q) := by
  obtain ⟨a, ha⟩ := wf_exists hinv.wf hinv.cur
  obtain ⟨hstuck, hstack⟩ := (isDone_iff hinv.wf ha).1 hd
  obtain ⟨t, ht, hret⟩ := step_retreat hinv.wf ha hstuck r
  have hinv2 := Inv_retreat hinv hret
  have hmove : t.backTrackStack = [] ∧ t.currentCell = s.currentCell := by
    rcases hret.move with ⟨rest, h1, -⟩ | ⟨-, h2, h3⟩
    · rw [hstack] at h1
      cases h1
    · exact ⟨h2, h3⟩
  refine ⟨t, ht, hinv2, hmove.2, by rw [hmove.1, hstack], ?_, hret.grid⟩
  have hall := (stuck_iff hinv.wf a).1 hstuck
  have ha2 : t.grid[t.currentCell]? = some (markCell s.currentCell s.currentCell a) := by
    rw [hmove.2]
    exact map_of_cell hret.grid ha
  rw [isDone_iff hinv2.wf ha2]
  refine ⟨?_, hmove.1⟩
  rw [stuck_iff hinv2.wf]
  intro q b2 d hb2 hdir
  obtain ⟨b, hb, rfl⟩ := cell_of_map hret.grid hb2
  have hdir2 : inDirection d a b :=
    (inDirection_congr (markCell_coords _ _ _) (markCell_coords _ _ _)).1 hdir
  exact (markCell_visited _ _ _).2 (Or.inl (hall q b d hb hdir2))

/-- C3: termination.  For every `C, R ≥ 1` and every sequence of random
outcomes, one of the first `2*C*R` steps is a done step: the state before it
has an empty stack and a current cell without unvisited neighbour, and the
step neither advances nor backtracks. -/
theorem reaches_done (C R : Nat) (hC : 1 ≤ C) (hR : 1 ≤ R) (rs : Nat → Nat) :
    ∃ (k : Nat) (s t : State), k + 1 ≤ 2 * C * R ∧
      run C R rs k = some s ∧ isDone C R s ∧
      run C R rs (k + 1) = some t ∧
      t.currentCell = s.currentCell ∧ t.backTrackStack = s.backTrackStack ∧ isDone C R t := by
  have hN : 1 ≤ C * R := Nat.mul_pos hC hR
  obtain ⟨s0, -, -, hcase⟩ := run_potential hC hR rs (2 * (C * R - 1) + 1)
  rcases hcase with ⟨j, sj, hj, hsj, hdj⟩ | hp
  · obtain ⟨s2, hs2, hinv⟩ := run_inv hC hR rs j
    rw [hsj] at hs2
    cases hs2
    obtain ⟨t, ht, -, h1, h2, h3, -⟩ := done_step hinv hdj (rs j)
    refine ⟨j, sj, t, ?_, hsj, hdj, ?_, h1, h2, h3⟩
    · rw [Nat.mul_assoc]
      omega
    · simp only [run, hsj]
      exact ht
  · omega

theorem reaches_done_witness :
    ∃ (k : Nat) (s t : State), k + 1 ≤ 2 * 3 * 2 ∧
      run ((3 : Nat) : Int) ((2 : Nat) : Int) (fun i => i) k = some s ∧
      isDone ((3 : Nat) : Int) ((2 : Nat) : Int) s ∧
      run ((3 : Nat) : Int) ((2 : Nat) : Int) (fun i => i) (k + 1) = some t ∧
      t.currentCell = s.currentCell ∧ t.backTrackStack = s.backTrackStack ∧
      isDone ((3 : Nat) : Int) ((2 : Nat) : Int) t :=
  reaches_done 3 2 (by decide) (by decide) (fun i => i)

/-! ## Adding a leaf to a forest -/

theorem isAcyclic_add_leaf {V : Type} {G H : SimpleGraph V} {c n : V} (hG : G.IsAcyclic)
    (hiso : ∀ x, ¬ G.Adj n x)
    (hadj : ∀ x y, H.Adj x y ↔ (G.Adj x y ∨ (x = c ∧ y = n) ∨ (x = n ∧ y = c))) :
    H.IsAcyclic := by
  classical
  have hleaf : ∀ x, H.Adj n x → x = c := by
    intro x hx
    rcases (hadj n x).1 hx with h | ⟨h1, h2⟩ | ⟨-, h2⟩
    · exact absurd h (hiso x)
    · exact absurd (h2 ▸ hx) (H.loopless n)
    · exact h2
  intro v w hw
  by_cases hn : n ∈ w.support
  · have hrot := hw.rotate hn
    generalize w.rotate hn = w2 at hrot
    cases w2 with
    | nil => exact hrot.not_of_nil
    | cons h p =>
      rename_i x
      rw [SimpleGraph.Walk.cons_isCycle_iff] at hrot
      apply hrot.2
      have hrev : s(n, x) ∈ p.reverse.edges := by
        generalize p.reverse = pr
        cases pr with
        | nil => exact absurd h (H.loopless n)
        | cons h2 q =>
          rename_i y
          have hy : y = x := (hleaf _ h2).trans (hleaf _ h).symm
          subst hy
          simp
      rw [SimpleGraph.Walk.edges_reverse, List.mem_reverse] at hrev
      exact hrev
  · have hedges : ∀ e, e ∈ w.edges → e ∈ G.edgeSet := by
      intro e he
      induction e using Sym2.ind with
      | _ x y =>
        have hxy := w.adj_of_mem_edges he
        rw [SimpleGraph.mem_edgeSet]
        rcases (hadj x y).1 hxy with h | ⟨-, h2⟩ | ⟨h1, -⟩
        · exact h
        · exact absurd (h2 ▸ w.snd_mem_support_of_mem_edges he) hn
        · exact absurd (h1 ▸ w.fst_mem_support_of_mem_edges he) hn
    exact hG _ (hw.transfer hedges)

/-! ## Removed walls along a step -/

theorem carved_iff {g : List Cell} {p q : CellRef} :
    carved g p q ↔ ∃ (a b : Cell) (d : Fin 4), g[p]? = some a ∧ g[q]? = some b ∧
      inDirection d a b ∧ a.walls d = false ∧ b.walls (d + 2) = false := by
  unfold carved
  cases hp : g[p]? with
  | none => simp
  | some a =>
    cases hq : g[q]? with
    | none => simp
    | some b => simp

theorem carved_symm {g : List Cell} {p q : CellRef} (h : carved g p q) : carved g q p := by
  rw [carved_iff] at *
  obtain ⟨a, b, d, ha, hb, hdir, h1, h2⟩ := h
  exact ⟨b, a, d + 2, hb, ha, inDirection_opp hdir, h2, by rw [opp_opp]; exact h1⟩

theorem carved_irrefl {g : List Cell} {p : CellRef} : ¬ carved g p p := by
  rw [carved_iff]
  rintro ⟨a, b, d, ha, hb, hdir, -, -⟩
  rw [ha] at hb
  cases hb
  exact inDirection_irrefl hdir

theorem passage_adj {C R : Nat} {g : List Cell} {p q : Fin (C * R)} :
    (passage C R g).Adj p q ↔ carved g p.val q.val := by
  unfold passage
  rw [SimpleGraph.fromRel_adj]
  constructor
  · rintro ⟨-, h | h⟩
    · exact h
    · exact carved_symm h
  · intro h
    refine ⟨?_, Or.inl h⟩
    intro e
    rw [e] at h
    exact carved_irrefl h

theorem carved_retreat {C R : Nat} {s t : State} (h : Retreat C R s t) (p q : CellRef) :
    carved t.grid p q ↔ carved s.grid p q := by
  rw [carved_iff, carved_iff]
  constructor
  · rintro ⟨a2, b2, d, ha2, hb2, hdir, h1, h2⟩
    obtain ⟨a, ha, rfl⟩ := cell_of_map h.grid ha2
    obtain ⟨b, hb, rfl⟩ := cell_of_map h.grid hb2
    rw [markCell_walls] at h1 h2
    exact ⟨a, b, d, ha, hb,
      (inDirection_congr (markCell_coords _ _ _) (markCell_coords _ _ _)).1 hdir, h1, h2⟩
  · rintro ⟨a, b, d, ha, hb, hdir, h1, h2⟩
    refine ⟨_, _, d, map_of_cell h.grid ha, map_of_cell h.grid hb,
      (inDirection_congr (markCell_coords _ _ _) (markCell_coords _ _ _)).2 hdir, ?_, ?_⟩
    · rw [markCell_walls]
      exact h1
    · rw [markCell_walls]
      exact h2

theorem advance_pair {C R : Nat} {s t : State} {n : CellRef} {d : Fin 4} {r : Nat}
    (hwf : WFGrid C R s.grid) (h : Advance C R s t n d r) {p q : CellRef} {cp cq : Cell}
    {e : Fin 4} (hcp : s.grid[p]? = some cp) (hcq : s.grid[q]? = some cq)
    (hdir3 : inDirection e cp cq) :
    ((p = n ∧ e = d + 2) → q = s.currentCell) ∧ ((p = s.currentCell ∧ e = d) → q = n) := by
  obtain ⟨a, b, ha, hb, hdir, -⟩ := h.neighbour
  constructor
  · rintro ⟨rfl, rfl⟩
    rw [hb] at hcp
    cases hcp
    have h3 := inDirection_opp hdir
    exact wf_same_coords hwf hcq ha (by unfold inDirection at *; omega)
      (by unfold inDirection at *; omega)
  · rintro ⟨rfl, rfl⟩
    rw [ha] at hcp
    cases hcp
    exact wf_same_coords hwf hcq hb (by unfold inDirection at *; omega)
      (by unfold inDirection at *; omega)

theorem carved_advance {C R : Nat} {s t : State} {n : CellRef} {d : Fin 4} {r : Nat}
    (hinv : Inv C R s) (h : Advance C R s t n d r) (p q : CellRef) :
    carved t.grid p q ↔
      (carved s.grid p q ∨ (p = s.currentCell ∧ q = n) ∨ (p = n ∧ q = s.currentCell)) := by
  obtain ⟨a, b, ha, hb, hdir, hv⟩ := h.neighbour
  have hne := advance_ne h
  rw [carved_iff, carved_iff]
  constructor
  · rintro ⟨a2, b2, e, ha2, hb2, hdir2, h1, h2⟩
    obtain ⟨cp, hcp, rfl⟩ := cell_of_map h.grid ha2
    obtain ⟨cq, hcq, rfl⟩ := cell_of_map h.grid hb2
    have hdir3 : inDirection e cp cq :=
      (inDirection_congr (advanceCell_coords _ _ _ _ _) (advanceCell_coords _ _ _ _ _)).1 hdir2
    have hpair := advance_pair hinv.wf h hcp hcq hdir3
    rcases (advanceCell_walls hne _ _ _ _).1 h1 with h3 | h3 | h3
    · left
      refine ⟨cp, cq, e, hcp, hcq, hdir3, h3, ?_⟩
      rw [← hinv.sym p q cp cq e hcp hcq hdir3]
      exact h3
    · exact Or.inr (Or.inr ⟨h3.1, hpair.1 h3⟩)
    · exact Or.inr (Or.inl ⟨h3.1, hpair.2 h3⟩)
  · rintro (⟨cp, cq, e, hcp, hcq, hdir3, h1, h2⟩ | ⟨rfl, rfl⟩ | ⟨rfl, rfl⟩)
    · exact ⟨_, _, e, map_of_cell h.grid hcp, map_of_cell h.grid hcq,
        (inDirection_congr (advanceCell_coords _ _ _ _ _) (advanceCell_coords _ _ _ _ _)).2 hdir3,
        (advanceCell_walls hne _ _ _ _).2 (Or.inl h1),
        (advanceCell_walls hne _ _ _ _).2 (Or.inl h2)⟩
    · exact ⟨_, _, d, map_of_cell h.grid ha, map_of_cell h.grid hb,
        (inDirection_congr (advanceCell_coords _ _ _ _ _) (advanceCell_coords _ _ _ _ _)).2 hdir,
        (advanceCell_walls hne _ _ _ _).2 (Or.inr (Or.inr ⟨rfl, rfl⟩)),
        (advanceCell_walls hne _ _ _ _).2 (Or.inr (Or.inl ⟨rfl, rfl⟩))⟩
    · exact ⟨_, _, d + 2, map_of_cell h.grid hb, map_of_cell h.grid ha,
        (inDirection_congr (advanceCell_coords _ _ _ _ _) (advanceCell_coords _ _ _ _ _)).2
          (inDirection_opp hdir),
        (advanceCell_walls hne _ _ _ _).2 (Or.inr (Or.inl ⟨rfl, rfl⟩)),
        (advanceCell_walls hne _ _ _ _).2 (Or.inr (Or.inr ⟨rfl, opp_opp d⟩))⟩

theorem carved_fresh {C R : Nat} {s : State} (hinv : Inv C R s) {n : CellRef} {b : Cell}
    (hb : s.grid[n]? = some b) (hv : b.visited = false) (x : CellRef) :
    ¬ carved s.grid n x ∧ ¬ carved s.grid x n := by
  have h1 : ¬ carved s.grid n x := by
    rw [carved_iff]
    rintro ⟨a2, b2, d, ha2, -, -, hw, -⟩
    rw [hb] at ha2
    cases ha2
    rw [hinv.fresh n b hb hv d] at hw
    cases hw
  exact ⟨h1, fun h => h1 (carved_symm h)⟩

/-! ## The passage graph along a step -/

theorem removedWallPairs_congr {g g2 : List Cell} (hlen : g2.length = g.length)
    (h : ∀ p q, carved g2 p q ↔ carved g p q) : removedWallPairs g2 = removedWallPairs g := by
  unfold removedWallPairs
  rw [hlen]
  congr 1
  ext pq
  simp only [Finset.mem_filter, h]

theorem TreeInv_retreat {C R : Nat} {s t : State} (hinv : Inv C R s) (htree : TreeInv C R s)
    (h : Retreat C R s t) : TreeInv C R t := by
  have hinv2 := Inv_retreat hinv h
  have hG : passage C R t.grid = passage C R s.grid := by
    ext p q
    rw [passage_adj, passage_adj, carved_retreat h]
  refine ⟨?_, ?_, ?_⟩
  · intro r0 p hr0 hp
    rw [hG]
    apply htree.reach r0 p hr0
    rcases hp with hp | hp
    · exact (retreat_visitedAt hinv.wf h p.isLt).1 hp
    · rw [hp]
      exact retreat_target hinv h
  · rw [hG]
    exact htree.acyclic
  · rw [removedWallPairs_congr (by rw [hinv2.wf.1, hinv.wf.1]) (carved_retreat h),
      unvisitedOthers_retreat hinv h (retreat_target hinv h)]
    exact htree.count

theorem removedWallPairs_advance {C R : Nat} {s t : State} {n : CellRef} {d : Fin 4} {r : Nat}
    (hinv : Inv C R s) (h : Advance C R s t n d r) :
    removedWallPairs t.grid = removedWallPairs s.grid + 1 := by
  obtain ⟨a, b, ha, hb, hdir, hv⟩ := h.neighbour
  have hne := advance_ne h
  have hinv2 := Inv_advance hinv h
  have hn : n < C * R := (wf_cell hinv.wf hb).1
  have hc : s.currentCell < C * R := hinv.cur
  have hfresh := carved_fresh hinv hb hv
  unfold removedWallPairs
  rw [hinv2.wf.1, hinv.wf.1]
  have hset : (Finset.range (C * R) ×ˢ Finset.range (C * R)).filter
      (fun pq => pq.1 < pq.2 ∧ carved t.grid pq.1 pq.2) =
      insert (min s.currentCell n, max s.currentCell n)
        ((Finset.range (C * R) ×ˢ Finset.range (C * R)).filter
          (fun pq => pq.1 < pq.2 ∧ carved s.grid pq.1 pq.2)) := by
    ext ⟨p, q⟩
    simp only [Finset.mem_filter, Finset.mem_product, Finset.mem_range, Finset.mem_insert,
      Prod.mk.injEq, carved_advance hinv h]
    constructor
    · rintro ⟨⟨hp, hq⟩, hlt, hcv | ⟨rfl, rfl⟩ | ⟨rfl, rfl⟩⟩
      · exact Or.inr ⟨⟨hp, hq⟩, hlt, hcv⟩
      · exact Or.inl ⟨(min_eq_left (le_of_lt hlt)).symm, (max_eq_right (le_of_lt hlt)).symm⟩
      · exact Or.inl ⟨(min_eq_right (le_of_lt hlt)).symm, (max_eq_left (le_of_lt hlt)).symm⟩
    · rintro (⟨h1, h2⟩ | ⟨⟨hp, hq⟩, hlt, hcv⟩)
      · rcases Nat.lt_or_gt_of_ne hne with hlt | hlt
        · rw [min_eq_right (le_of_lt hlt)] at h1
          rw [max_eq_left (le_of_lt hlt)] at h2
          subst h1 h2
          exact ⟨⟨hn, hc⟩, hlt, Or.inr (Or.inr ⟨rfl, rfl⟩)⟩
        · rw [min_eq_left (le_of_lt hlt)] at h1
          rw [max_eq_right (le_of_lt hlt)] at h2
          subst h1 h2
          exact ⟨⟨hc, hn⟩, hlt, Or.inr (Or.inl ⟨rfl, rfl⟩)⟩
      · exact ⟨⟨hp, hq⟩, hlt, Or.inl hcv⟩
  rw [hset, Finset.card_insert_of_not_mem]
  simp only [Finset.mem_filter, not_and]
  intro _ _ hcv
  rcases Nat.lt_or_gt_of_ne hne with hlt | hlt
  · rw [min_eq_right (le_of_lt hlt)] at hcv
    exact (hfresh _).1 hcv
  · rw [max_eq_right (le_of_lt hlt)] at hcv
    exact (hfresh _).2 hcv

theorem TreeInv_advance {C R : Nat} {s t : State} {n : CellRef} {d : Fin 4} {r : Nat}
    (hinv : Inv C R s) (htree : TreeInv C R s) (h : Advance C R s t n d r) :
    TreeInv C R t := by
  obtain ⟨a, b, ha, hb, hdir, hv⟩ := h.neighbour
  have hn : n < C * R := (wf_cell hinv.wf hb).1
  have hadj : ∀ x y : Fin (C * R), (passage C R t.grid).Adj x y ↔
      ((passage C R s.grid).Adj x y ∨
        (x = ⟨s.currentCell, hinv.cur⟩ ∧ y = ⟨n, hn⟩) ∨
        (x = ⟨n, hn⟩ ∧ y = ⟨s.currentCell, hinv.cur⟩)) := by
    intro x y
    rw [passage_adj, passage_adj, carved_advance hinv h]
    simp only [Fin.ext_iff]
  have hle : passage C R s.grid ≤ passage C R t.grid := by
    intro x y hxy
    exact (hadj x y).2 (Or.inl hxy)
  refine ⟨?_, ?_, ?_⟩
  · intro r0 p hr0 hp
    have hp2 : visitedAt s.grid p.val ∨ p.val = n ∨ p.val = s.currentCell := by
      rcases hp with hp | hp
      · exact (advance_visitedAt hinv.wf h p.isLt).1 hp
      · rw [h.current] at hp
        exact Or.inr (Or.inl hp)
    rcases hp2 with hp2 | hp2 | hp2
    · exact (htree.reach r0 p hr0 (Or.inl hp2)).mono hle
    · have h1 : (passage C R s.grid).Reachable r0 ⟨s.currentCell, hinv.cur⟩ :=
        htree.reach r0 _ hr0 (Or.inr rfl)
      have h2 : (passage C R t.grid).Adj ⟨s.currentCell, hinv.cur⟩ p :=
        (hadj _ _).2 (Or.inr (Or.inl ⟨rfl, Fin.ext hp2⟩))
      exact (h1.mono hle).trans h2.reachable
    · exact (htree.reach r0 p hr0 (Or.inr hp2)).mono hle
  · refine isAcyclic_add_leaf htree.acyclic ?_ hadj
    intro x hx
    rw [passage_adj] at hx
    exact (carved_fresh hinv hb hv x.val).1 hx
  · have h1 := removedWallPairs_advance hinv h
    have h2 := unvisitedOthers_advance hinv h
    have h3 := htree.count
    omega

/-! ## The spanning tree -/

theorem carved_init {C R : Nat} (p q : CellRef) :
    ¬ carved (initGrid [] (C : Int) (R : Int)) p q := by
  rw [carved_iff]
  rintro ⟨a, b, d, ha, -, -, hw, -⟩
  rw [(initGrid_cell ha).2 d] at hw
  cases hw

theorem TreeInv_init {C R : Nat} (hC : 1 ≤ C) (hR : 1 ≤ R) :
    TreeInv C R
      { grid := initGrid [] (C : Int) (R : Int), currentCell := 0, backTrackStack := [] } := by
  have hG : passage C R (initGrid [] (C : Int) (R : Int)) = ⊥ := by
    ext p q
    rw [passage_adj]
    simp only [SimpleGraph.bot_adj, iff_false]
    exact carved_init _ _
  refine ⟨?_, ?_, ?_⟩
  · intro r0 p hr0 hp
    have hp0 : p.val = 0 := by
      rcases hp with hp | hp
      · obtain ⟨c, hc, hcv⟩ := visitedAt_iff.1 hp
        rw [(initGrid_cell hc).1] at hcv
        cases hcv
      · exact hp
    have e : r0 = p := Fin.ext (by rw [hr0, hp0])
    rw [e]
  · simp only [hG]
    exact SimpleGraph.isAcyclic_bot
  · have h1 : removedWallPairs (initGrid [] (C : Int) (R : Int)) = 0 := by
      unfold removedWallPairs
      rw [Finset.card_eq_zero, Finset.filter_eq_empty_iff]
      rintro ⟨p, q⟩ _ ⟨-, hcv⟩
      exact carved_init _ _ hcv
    have h2 := potential_init hC hR
    unfold potential at h2
    simp only [List.length_nil, Nat.add_zero] at h2
    rw [h1]
    omega

theorem run_tree {C R : Nat} (hC : 1 ≤ C) (hR : 1 ≤ R) (rs : Nat → Nat) (k : Nat) :
    ∃ s, run C R rs k = some s ∧ Inv C R s ∧ TreeInv C R s := by
  induction k with
  | zero => exact ⟨_, initState_eq hC hR, Inv_init hC hR, TreeInv_init hC hR⟩
  | succ k ih =>
    obtain ⟨s, hs, hinv, htree⟩ := ih
    obtain ⟨t, h1, h2⟩ := step_cases hinv.wf hinv.cur (rs k)
    have hrun : run C R rs (k + 1) = some t := by
      simp only [run, hs]
      exact h1
    rcases h2 with ⟨n, d, h⟩ | h
    · exact ⟨t, hrun, Inv_advance hinv h, TreeInv_advance hinv htree h⟩
    · exact ⟨t, hrun, Inv_retreat hinv h, TreeInv_retreat hinv htree h⟩

theorem done_unvisitedOthers {C R : Nat} {s : State} (hinv : Inv C R s)
    (hdone : isDone C R s) : unvisitedOthers s = 0 := by
  unfold unvisitedOthers
  rw [Finset.card_eq_zero, Finset.filter_eq_empty_iff]
  intro p hp
  rw [Finset.mem_range, hinv.wf.1] at hp
  rintro ⟨h1, h2⟩
  rcases done_all hinv hdone p hp with h | h
  · exact h1 h
  · exact h2 h

/-- C1: when the generator is in the done state, the graph whose vertices are
the `C * R` cells and whose edges are the grid-adjacent pairs with a removed wall
between them is connected and acyclic: it is a spanning tree of the grid graph. -/
theorem done_spanning_tree (C R : Nat) (hC : 1 ≤ C) (hR : 1 ≤ R) (rs : Nat → Nat) (k : Nat) :
    ∃ s, run C R rs k = some s ∧
      (isDone C R s → (passage C R s.grid).Connected ∧ (passage C R s.grid).IsAcyclic ∧
        (passage C R s.grid).IsTree) := by
  obtain ⟨s, hs, hinv, htree⟩ := run_tree hC hR rs k
  refine ⟨s, hs, fun hdone => ?_⟩
  have hN : 0 < C * R := Nat.mul_pos hC hR
  have hconn : (passage C R s.grid).Connected := by
    haveI : Nonempty (Fin (C * R)) := ⟨⟨0, hN⟩⟩
    refine SimpleGraph.Connected.mk ?_
    intro u v
    have hu := htree.reach ⟨0, hN⟩ u rfl (done_all hinv hdone u.val u.isLt)
    have hv := htree.reach ⟨0, hN⟩ v rfl (done_all hinv hdone v.val v.isLt)
    exact hu.symm.trans hv
  exact ⟨hconn, htree.acyclic, ⟨hconn, htree.acyclic⟩⟩

theorem done_spanning_tree_witness :
    ∃ s, run ((2 : Nat) : Int) ((2 : Nat) : Int) (fun _ => 0) 6 = some s ∧
      (isDone ((2 : Nat) : Int) ((2 : Nat) : Int) s →
        (passage 2 2 s.grid).Connected ∧ (passage 2 2 s.grid).IsAcyclic ∧
        (passage 2 2 s.grid).IsTree) :=
  done_spanning_tree 2 2 (by decide) (by decide) (fun _ => 0) 6

/-- C2: when the generator is in the done state the number of removed wall
pairs is `C * R - 1`. -/
theorem done_removed_count (C R : Nat) (hC : 1 ≤ C) (hR : 1 ≤ R) (rs : Nat → Nat) (k : Nat) :
    ∃ s, run C R rs k = some s ∧ (isDone C R s → removedWallPairs s.grid = C * R - 1) := by
  obtain ⟨s, hs, hinv, htree⟩ := run_tree hC hR rs k
  refine ⟨s, hs, fun hdone => ?_⟩
  have h1 := htree.count
  rw [done_unvisitedOthers hinv hdone] at h1
  exact h1

theorem done_removed_count_witness :
    (∃ s, run ((20 : Nat) : Int) ((20 : Nat) : Int) (fun i => i) 798 = some s ∧
      (isDone ((20 : Nat) : Int) ((20 : Nat) : Int) s → removedWallPairs s.grid = 399)) ∧
    (∃ s, run ((2 : Nat) : Int) ((1 : Nat) : Int) (fun _ => 0) 2 = some s ∧
      (isDone ((2 : Nat) : Int) ((1 : Nat) : Int) s → removedWallPairs s.grid = 1)) :=
  ⟨done_removed_count 20 20 (by decide) (by decide) (fun i => i) 798,
   done_removed_count 2 1 (by decide) (by decide) (fun _ => 0) 2⟩

/-! ## The path invariant -/

theorem PathInv_advance {C R : Nat} {s t : State} {n : CellRef} {d : Fin 4} {r : Nat}
    (hinv : Inv C R s) (hpath : PathInv s) (h : Advance C R s t n d r) : PathInv t := by
  obtain ⟨a, b, ha, hb, hdir, hv⟩ := h.neighbour
  have hne := advance_ne h
  have hns : n ∉ s.backTrackStack := by
    intro hm
    obtain ⟨c, hc, hcv⟩ := visitedAt_iff.1 (hinv.stackVisited n hm)
    rw [hb] at hc
    cases hc
    rw [hv] at hcv
    cases hcv
  refine ⟨?_, ?_, ?_⟩
  · rw [h.current, h.stack, List.nodup_cons]
    refine ⟨?_, hpath.nodup⟩
    intro hm
    rcases List.mem_cons.1 hm with e | e
    · exact hne e
    · exact hns e
  · rw [h.current, h.stack, List.getLast?_cons_cons]
    exact hpath.last
  · rw [h.current, h.stack, List.chain'_cons]
    refine ⟨(carved_advance hinv h _ _).2 (Or.inr (Or.inr ⟨rfl, rfl⟩)), ?_⟩
    exact hpath.chain.imp (fun x y hxy => (carved_advance hinv h x y).2 (Or.inl hxy))

theorem PathInv_retreat {C R : Nat} {s t : State} (hpath : PathInv s) (h : Retreat C R s t) :
    PathInv t := by
  have hchain : List.Chain' (carved t.grid) (s.currentCell :: s.backTrackStack) :=
    hpath.chain.imp (fun x y hxy => (carved_retreat h x y).2 hxy)
  rcases h.move with ⟨rest, h1, h2⟩ | ⟨h1, h2, h3⟩
  · have hn := hpath.nodup
    have hl := hpath.last
    rw [h1] at hn hl hchain
    rw [List.getLast?_cons_cons] at hl
    refine ⟨?_, ?_, ?_⟩
    · rw [h2]
      exact (List.nodup_cons.1 hn).2
    · rw [h2]
      exact hl
    · rw [h2]
      exact (List.chain'_cons.1 hchain).2
  · refine ⟨?_, ?_, ?_⟩
    · rw [h3, h2, ← h1]
      exact hpath.nodup
    · rw [h3, h2, ← h1]
      exact hpath.last
    · rw [h3, h2, ← h1]
      exact hchain

theorem PathInv_init (g : List Cell) :
    PathInv { grid := g, currentCell := 0, backTrackStack := [] } := by
  refine ⟨?_, ?_, ?_⟩
  · simp
  · rfl
  · exact List.chain'_singleton _

theorem run_path {C R : Nat} (hC : 1 ≤ C) (hR : 1 ≤ R) (rs : Nat → Nat) (k : Nat) :
    ∃ s, run C R rs k = some s ∧ Inv C R s ∧ PathInv s := by
  induction k with
  | zero => exact ⟨_, initState_eq hC hR, Inv_init hC hR, PathInv_init _⟩
  | succ k ih =>
    obtain ⟨s, hs, hinv, hpath⟩ := ih
    obtain ⟨t, h1, h2⟩ := step_cases hinv.wf hinv.cur (rs k)
    have hrun : run C R rs (k + 1) = some t := by
      simp only [run, hs]
      exact h1
    rcases h2 with ⟨n, d, h⟩ | h
    · exact ⟨t, hrun, Inv_advance hinv h, PathInv_advance hinv hpath h⟩
    · exact ⟨t, hrun, Inv_retreat hinv h, PathInv_retreat hpath h⟩

theorem run_unique {C R : Int} {rs : Nat → Nat} {k : Nat} {s t : State}
    (hs : run C R rs k = some s) (ht : run C R rs k = some t) : s = t := by
  rw [hs] at ht
  cases ht
  rfl

/-- C11: in every state reached after one or more steps, the current cell and
every cell on the backtrack stack are cells of the grid with `visited = true`,
and no cell is on the stack twice (nor is the current cell on the stack). -/
theorem stack_visited_nodup (C R : Nat) (hC : 1 ≤ C) (hR : 1 ≤ R) (rs : Nat → Nat) (k : Nat) :
    ∃ s, run C R rs (k + 1) = some s ∧
      (∃ c, s.grid[s.currentCell]? = some c ∧ c.visited = true) ∧
      (∀ p ∈ s.backTrackStack, p < s.grid.length ∧
        ∃ c, s.grid[p]? = some c ∧ c.visited = true) ∧
      s.backTrackStack.Nodup ∧ s.currentCell ∉ s.backTrackStack := by
  obtain ⟨s, hs, hinv, hcur⟩ := run_succ_current_visited hC hR rs k
  obtain ⟨s2, hs2, -, hpath⟩ := run_path hC hR rs (k + 1)
  have e := run_unique hs2 hs
  subst e
  have hn := List.nodup_cons.1 hpath.nodup
  refine ⟨s2, hs, visitedAt_iff.1 hcur, ?_, hn.2, hn.1⟩
  intro p hp
  obtain ⟨c, hc, hcv⟩ := visitedAt_iff.1 (hinv.stackVisited p hp)
  exact ⟨(List.getElem?_eq_some.1 hc).1, c, hc, hcv⟩

theorem stack_visited_nodup_witness :
    ∃ s, run ((3 : Nat) : Int) ((2 : Nat) : Int) (fun i => i) (2 + 1) = some s ∧
      (∃ c, s.grid[s.currentCell]? = some c ∧ c.visited = true) ∧
      (∀ p ∈ s.backTrackStack, p < s.grid.length ∧
        ∃ c, s.grid[p]? = some c ∧ c.visited = true) ∧
      s.backTrackStack.Nodup ∧ s.currentCell ∉ s.backTrackStack :=
  stack_visited_nodup 3 2 (by decide) (by decide) (fun i => i) 2

/-- C20: the path invariant of the depth-first search.  In every reachable
state the stack read bottom-to-top followed by the current cell is a
duplicate-free path that starts at `grid[0]`, the cell (0,0), and in which
the wall between two consecutive cells is removed; with an empty stack the
current cell is `grid[0]`. -/
theorem dfs_path (C R : Nat) (hC : 1 ≤ C) (hR : 1 ≤ R) (rs : Nat → Nat) (k : Nat) :
    ∃ s, run C R rs k = some s ∧
      (dfsPath s).Nodup ∧ (dfsPath s).head? = some 0 ∧
      (∃ c0, s.grid[0]? = some c0 ∧ c0.col = 0 ∧ c0.row = 0) ∧
      List.Chain' (carved s.grid) (dfsPath s) ∧
      (s.backTrackStack = [] → s.currentCell = 0) := by
  obtain ⟨s, hs, hinv, hpath⟩ := run_path hC hR rs k
  have hrev : dfsPath s = (s.currentCell :: s.backTrackStack).reverse := by
    unfold dfsPath
    rw [List.reverse_cons]
  refine ⟨s, hs, ?_, ?_, ?_, ?_, ?_⟩
  · rw [hrev, List.nodup_reverse]
    exact hpath.nodup
  · rw [hrev, List.head?_reverse]
    exact hpath.last
  · obtain ⟨c0, hc0⟩ := wf_exists hinv.wf (Nat.mul_pos hC hR)
    obtain ⟨-, h1, h2, h3, h4, h5⟩ := wf_cell hinv.wf hc0
    have h6 : 0 ≤ c0.row * (C : Int) := mul_nonneg h3 (by omega)
    have hc : c0.col = 0 := by
      have : c0.col + c0.row * (C : Int) = 0 := by exact_mod_cast h5
      omega
    have hr : c0.row * (C : Int) = 0 := by
      have : c0.col + c0.row * (C : Int) = 0 := by exact_mod_cast h5
      omega
    refine ⟨c0, hc0, hc, ?_⟩
    rcases mul_eq_zero.1 hr with h | h
    · exact h
    · omega
  · rw [hrev, List.chain'_reverse]
    exact hpath.chain.imp (fun x y hxy => carved_symm hxy)
  · intro he
    have hl := hpath.last
    rw [he] at hl
    simpa using hl

theorem dfs_path_witness :
    ∃ s, run ((3 : Nat) : Int) ((2 : Nat) : Int) (fun i => i) 3 = some s ∧
      (dfsPath s).Nodup ∧ (dfsPath s).head? = some 0 ∧
      (∃ c0, s.grid[0]? = some c0 ∧ c0.col = 0 ∧ c0.row = 0) ∧
      List.Chain' (carved s.grid) (dfsPath s) ∧
      (s.backTrackStack = [] → s.currentCell = 0) :=
  dfs_path 3 2 (by decide) (by decide) (fun i => i) 3

/-! ## Monotonicity -/

theorem MonoGrid_refl (g : List Cell) : MonoGrid g g :=
  ⟨rfl, fun _ c hc => ⟨c, hc, rfl, rfl, fun h => h, fun _ h => h⟩⟩

theorem MonoGrid_trans {g1 g2 g3 : List Cell} (h12 : MonoGrid g1 g2) (h23 : MonoGrid g2 g3) :
    MonoGrid g1 g3 := by
  refine ⟨h23.1.trans h12.1, ?_⟩
  intro p c hc
  obtain ⟨c2, hc2, a1, a2, a3, a4⟩ := h12.2 p c hc
  obtain ⟨c3, hc3, b1, b2, b3, b4⟩ := h23.2 p c2 hc2
  exact ⟨c3, hc3, b1.trans a1, b2.trans a2, fun h => b3 (a3 h), fun d h => b4 d (a4 d h)⟩

theorem MonoGrid_mark (g : List Cell) (p : CellRef) :
    MonoGrid g (modifyCell g p Cell.markVisited) := by
  refine ⟨modifyCell_length _ _ _, ?_⟩
  intro q c hc
  rw [modifyCell_getElem?, hc]
  by_cases hq : q = p
  · rw [if_pos hq]
    exact ⟨c.markVisited, rfl, rfl, rfl, fun _ => rfl, fun _ h => h⟩
  · rw [if_neg hq]
    exact ⟨c, rfl, rfl, rfl, fun h => h, fun _ h => h⟩

theorem setWall_false_mono (c : Cell) (k d : Fin 4) (h : c.walls d = false) :
    (c.setWall k false).walls d = false := by
  unfold Cell.setWall
  simp only [Function.update_apply]
  split_ifs
  · rfl
  · exact h

theorem removeWalls_mono (a b : Cell) (d : Fin 4) :
    (a.walls d = false → (removeWalls a b).1.walls d = false) ∧
    (b.walls d = false → (removeWalls a b).2.walls d = false) := by
  unfold removeWalls
  simp only
  constructor
  · intro h
    split_ifs <;> first
      | exact h
      | exact setWall_false_mono _ _ _ h
      | exact setWall_false_mono _ _ _ (setWall_false_mono _ _ _ h)
  · intro h
    split_ifs <;> first
      | exact h
      | exact setWall_false_mono _ _ _ h
      | exact setWall_false_mono _ _ _ (setWall_false_mono _ _ _ h)

theorem MonoGrid_removeWallsAt (g : List Cell) (a b : CellRef) :
    MonoGrid g (removeWallsAt g a b) := by
  refine ⟨removeWallsAt_length _ _ _, ?_⟩
  intro q c hc
  cases ha : g[a]? with
  | none =>
    have : removeWallsAt g a b = g := by
      unfold removeWallsAt
      simp only [ha]
    rw [this]
    exact ⟨c, hc, rfl, rfl, fun h => h, fun _ h => h⟩
  | some ca =>
    cases hb : g[b]? with
    | none =>
      have : removeWallsAt g a b = g := by
        unfold removeWallsAt
        simp only [ha, hb]
      rw [this]
      exact ⟨c, hc, rfl, rfl, fun h => h, fun _ h => h⟩
    | some cb =>
      rw [removeWallsAt_getElem? g a b ca cb ha hb q]
      have hf := removeWalls_frame ca cb
      by_cases hq : q = b
      · subst hq
        rw [hb] at hc
        cases hc
        rw [if_pos rfl]
        exact ⟨_, rfl, hf.2.2.2.1, hf.2.2.2.2.1, fun h => by rw [hf.2.2.2.2.2]; exact h,
          fun d h => (removeWalls_mono ca c d).2 h⟩
      · rw [if_neg hq]
        by_cases hq2 : q = a
        · subst hq2
          rw [ha] at hc
          cases hc
          rw [if_pos rfl]
          exact ⟨_, rfl, hf.1, hf.2.1, fun h => by rw [hf.2.2.1]; exact h,
            fun d h => (removeWalls_mono c cb d).1 h⟩
        · rw [if_neg hq2]
          exact ⟨c, hc, rfl, rfl, fun h => h, fun _ h => h⟩

theorem step_mono {cols rows : Int} {s t : State} {r : Nat}
    (h : step cols rows s r = some t) : MonoGrid s.grid t.grid := by
  have h1 := MonoGrid_mark s.grid s.currentCell
  unfold step at h
  simp only at h
  split at h
  · cases h
  · split at h
    · split at h
      · cases h
      · simp only [Option.some.injEq] at h
        rw [← h]
        exact MonoGrid_trans h1 (MonoGrid_trans (MonoGrid_removeWallsAt _ _ _)
          (MonoGrid_mark _ _))
    · split at h
      · split at h
        · cases h
        · simp only [Option.some.injEq] at h
          rw [← h]
          exact h1
      · simp only [Option.some.injEq] at h
        rw [← h]
        exact h1

theorem run_succ_eq {cols rows : Int} {rs : Nat → Nat} {k : Nat} {s : State}
    (hs : run cols rows rs k = some s) :
    run cols rows rs (k + 1) = step cols rows s (rs k) := by
  simp only [run, hs]

theorem run_mono {cols rows : Int} {rs : Nat → Nat} {k : Nat} {s : State}
    (hs : run cols rows rs k = some s) (m : Nat) {t : State}
    (ht : run cols rows rs (k + m) = some t) : MonoGrid s.grid t.grid := by
  induction m generalizing t with
  | zero =>
    have e := run_unique hs ht
    subst e
    exact MonoGrid_refl _
  | succ m ih =>
    cases hu : run cols rows rs (k + m) with
    | none =>
      have : run cols rows rs (k + m + 1) = none := by
        simp only [run, hu]
      rw [← Nat.add_assoc, this] at ht
      cases ht
    | some u =>
      rw [← Nat.add_assoc, run_succ_eq hu] at ht
      exact MonoGrid_trans (ih hu) (step_mono ht)

/-- C13: monotonicity.  A generator step, from any state and with any random
outcome, keeps every removed wall flag removed and every visited flag set;
hence along any run the removed walls and the visited cells only grow. -/
theorem step_monotone (C R : Nat) (hC : 1 ≤ C) (hR : 1 ≤ R) (rs : Nat → Nat) (k m : Nat) :
    (∀ (cols rows : Int) (s t : State) (r : Nat), step cols rows s r = some t →
      t.grid.length = s.grid.length ∧
      ∀ (p : CellRef) (c : Cell), s.grid[p]? = some c →
        ∃ c2, t.grid[p]? = some c2 ∧
          (c.visited = true → c2.visited = true) ∧
          ∀ d, c.walls d = false → c2.walls d = false) ∧
    (∃ s t, run C R rs k = some s ∧ run C R rs (k + m) = some t ∧
      ∀ (p : CellRef) (c : Cell), s.grid[p]? = some c →
        ∃ c2, t.grid[p]? = some c2 ∧
          (c.visited = true → c2.visited = true) ∧
          ∀ d, c.walls d = false → c2.walls d = false) := by
  constructor
  · intro cols rows s t r h
    have hm := step_mono h
    refine ⟨hm.1, fun p c hc => ?_⟩
    obtain ⟨c2, hc2, -, -, h3, h4⟩ := hm.2 p c hc
    exact ⟨c2, hc2, h3, h4⟩
  · obtain ⟨s, hs, -⟩ := run_inv hC hR rs k
    obtain ⟨t, ht, -⟩ := run_inv hC hR rs (k + m)
    refine ⟨s, t, hs, ht, fun p c hc => ?_⟩
    obtain ⟨c2, hc2, -, -, h3, h4⟩ := (run_mono hs m ht).2 p c hc
    exact ⟨c2, hc2, h3, h4⟩

theorem step_monotone_witness :
    ∃ s t, run ((2 : Nat) : Int) ((2 : Nat) : Int) (fun _ => 0) 1 = some s ∧
      run ((2 : Nat) : Int) ((2 : Nat) : Int) (fun _ => 0) (1 + 4) = some t ∧
      ∀ (p : CellRef) (c : Cell), s.grid[p]? = some c →
        ∃ c2, t.grid[p]? = some c2 ∧
          (c.visited = true → c2.visited = true) ∧
          ∀ d, c.walls d = false → c2.walls d = false :=
  (step_monotone 2 2 (by decide) (by decide) (fun _ => 0) 1 4).2

/-! ## Pushes -/

theorem push_is_advance {C R : Nat} {s t : State} {r : Nat} (hinv : Inv C R s)
    (hstep : step C R s r = some t) {c : CellRef}
    (hpush : t.backTrackStack = c :: s.backTrackStack) :
    ∃ n d, Advance C R s t n d r := by
  obtain ⟨t2, h1, h2⟩ := step_cases hinv.wf hinv.cur r
  rw [hstep] at h1
  cases h1
  rcases h2 with h | h
  · exact h
  · exfalso
    rcases h.move with ⟨rest, h3, h4⟩ | ⟨h3, h4, -⟩
    · rw [h4, h3] at hpush
      have := congrArg List.length hpush
      simp only [List.length_cons] at this
      omega
    · rw [h4] at hpush
      cases hpush

theorem push_facts {C R : Nat} (hC : 1 ≤ C) (hR : 1 ≤ R) {rs : Nat → Nat} {j : Nat}
    {s t : State} {c : CellRef} (hs : run C R rs j = some s) (ht : run C R rs (j + 1) = some t)
    (hpush : t.backTrackStack = c :: s.backTrackStack) :
    c = s.currentCell ∧ c ∉ s.backTrackStack ∧
      ¬ visitedAt s.grid t.currentCell ∧ visitedAt t.grid t.currentCell := by
  obtain ⟨s2, hs2, hinv, hpath⟩ := run_path hC hR rs j
  have e := run_unique hs2 hs
  subst e
  rw [run_succ_eq hs] at ht
  obtain ⟨n, d, hadv⟩ := push_is_advance hinv ht hpush
  obtain ⟨a, b, ha, hb, hdir, hv⟩ := hadv.neighbour
  have hc : c = s2.currentCell := by
    have h1 := hadv.stack
    rw [hpush] at h1
    exact (List.cons.inj h1).1
  refine ⟨hc, ?_, ?_, advance_current_visited hadv⟩
  · rw [hc]
    exact (List.nodup_cons.1 hpath.nodup).1
  · rw [hadv.current, visitedAt_iff]
    rintro ⟨c2, hc2, hcv⟩
    rw [hb] at hc2
    cases hc2
    rw [hv] at hcv
    cases hcv

theorem stack_of_map {o : Option State} {l : List CellRef}
    (h : o.map State.backTrackStack = some l) : ∃ s, o = some s ∧ s.backTrackStack = l := by
  cases o with
  | none => cases h
  | some s =>
    simp only [Option.map_some', Option.some.injEq] at h
    exact ⟨s, rfl, h⟩

/-- C12, as amended: a push puts the current cell on a stack that does not
contain it and advances into a cell that was not visited, and no cell is
advanced into by two different pushes of a run.  (The same cell can be pushed
again after it has been popped.) -/
theorem push_discipline (C R : Nat) (hC : 1 ≤ C) (hR : 1 ≤ R) (rs : Nat → Nat) :
    (∀ (j : Nat) (s t : State) (c : CellRef), run C R rs j = some s →
      run C R rs (j + 1) = some t → t.backTrackStack = c :: s.backTrackStack →
      c = s.currentCell ∧ c ∉ s.backTrackStack ∧
        ¬ visitedAt s.grid t.currentCell ∧ visitedAt t.grid t.currentCell) ∧
    (∀ (j1 j2 : Nat) (s1 t1 s2 t2 : State) (c1 c2 : CellRef), j1 < j2 →
      run C R rs j1 = some s1 → run C R rs (j1 + 1) = some t1 →
      t1.backTrackStack = c1 :: s1.backTrackStack →
      run C R rs j2 = some s2 → run C R rs (j2 + 1) = some t2 →
      t2.backTrackStack = c2 :: s2.backTrackStack →
      t1.currentCell ≠ t2.currentCell) := by
  constructor
  · intro j s t c hs ht hpush
    exact push_facts hC hR hs ht hpush
  · intro j1 j2 s1 t1 s2 t2 c1 c2 hlt hs1 ht1 hp1 hs2 ht2 hp2 heq
    obtain ⟨-, -, -, hv1⟩ := push_facts hC hR hs1 ht1 hp1
    obtain ⟨-, -, hn2, -⟩ := push_facts hC hR hs2 ht2 hp2
    have hj : j2 = (j1 + 1) + (j2 - (j1 + 1)) := by omega
    rw [hj] at hs2
    have hm := run_mono ht1 _ hs2
    apply hn2
    rw [← heq]
    obtain ⟨c, hc, hcv⟩ := visitedAt_iff.1 hv1
    obtain ⟨c3, hc3, -, -, h3, -⟩ := hm.2 _ c hc
    exact visitedAt_iff.2 ⟨c3, hc3, h3 hcv⟩

theorem push_discipline_witness :
    ∃ s t, run ((3 : Nat) : Int) ((2 : Nat) : Int) (fun k => if k = 0 then 0 else 1) 2 = some s ∧
      run ((3 : Nat) : Int) ((2 : Nat) : Int) (fun k => if k = 0 then 0 else 1) (2 + 1) = some t ∧
      t.backTrackStack = 4 :: s.backTrackStack ∧
      (4 = s.currentCell ∧ 4 ∉ s.backTrackStack ∧
        ¬ visitedAt s.grid t.currentCell ∧ visitedAt t.grid t.currentCell) := by
  have m2 : (run ((3 : Nat) : Int) ((2 : Nat) : Int) (fun k => if k = 0 then 0 else 1) 2).map
      State.backTrackStack = some [1, 0] := by decide
  have m3 : (run ((3 : Nat) : Int) ((2 : Nat) : Int) (fun k => if k = 0 then 0 else 1)
      (2 + 1)).map State.backTrackStack = some [4, 1, 0] := by decide
  obtain ⟨s, h2, e2⟩ := stack_of_map m2
  obtain ⟨t, h3, e3⟩ := stack_of_map m3
  have hp : t.backTrackStack = 4 :: s.backTrackStack := by rw [e3, e2]
  exact ⟨s, t, h2, h3, hp,
    (push_discipline 3 2 (by decide) (by decide) (fun k => if k = 0 then 0 else 1)).1
      2 s t 4 h2 h3 hp⟩

/-- Counterexample to C12 as stated: on the 3x2 grid, with the random outcomes
`0, 1, 1, ...`, the cell at position 4 is pushed by the third step, popped by
the fourth and pushed again by the fifth. -/
theorem push_twice :
    (run ((3 : Nat) : Int) ((2 : Nat) : Int) (fun k => if k = 0 then 0 else 1) 2).map
        State.backTrackStack = some [1, 0] ∧
    (run ((3 : Nat) : Int) ((2 : Nat) : Int) (fun k => if k = 0 then 0 else 1) 3).map
        State.backTrackStack = some [4, 1, 0] ∧
    (run ((3 : Nat) : Int) ((2 : Nat) : Int) (fun k => if k = 0 then 0 else 1) 4).map
        State.backTrackStack = some [1, 0] ∧
    (run ((3 : Nat) : Int) ((2 : Nat) : Int) (fun k => if k = 0 then 0 else 1) 5).map
        State.backTrackStack = some [4, 1, 0] ∧
    ¬ (∀ (j1 j2 : Nat) (s1 t1 s2 t2 : State) (c : CellRef), j1 < j2 →
      run ((3 : Nat) : Int) ((2 : Nat) : Int) (fun k => if k = 0 then 0 else 1) j1 = some s1 →
      run ((3 : Nat) : Int) ((2 : Nat) : Int) (fun k => if k = 0 then 0 else 1) (j1 + 1)
        = some t1 →
      t1.backTrackStack = c :: s1.backTrackStack →
      run ((3 : Nat) : Int) ((2 : Nat) : Int) (fun k => if k = 0 then 0 else 1) j2 = some s2 →
      run ((3 : Nat) : Int) ((2 : Nat) : Int) (fun k => if k = 0 then 0 else 1) (j2 + 1)
        = some t2 →
      t2.backTrackStack ≠ c :: s2.backTrackStack) := by
  have m2 : (run ((3 : Nat) : Int) ((2 : Nat) : Int) (fun k => if k = 0 then 0 else 1) 2).map
      State.backTrackStack = some [1, 0] := by decide
  have m3 : (run ((3 : Nat) : Int) ((2 : Nat) : Int) (fun k => if k = 0 then 0 else 1) 3).map
      State.backTrackStack = some [4, 1, 0] := by decide
  have m4 : (run ((3 : Nat) : Int) ((2 : Nat) : Int) (fun k => if k = 0 then 0 else 1) 4).map
      State.backTrackStack = some [1, 0] := by decide
  have m5 : (run ((3 : Nat) : Int) ((2 : Nat) : Int) (fun k => if k = 0 then 0 else 1) 5).map
      State.backTrackStack = some [4, 1, 0] := by decide
  refine ⟨m2, m3, m4, m5, ?_⟩
  intro h
  obtain ⟨s1, h2, e2⟩ := stack_of_map m2
  obtain ⟨t1, h3, e3⟩ := stack_of_map m3
  obtain ⟨s2, h4, e4⟩ := stack_of_map m4
  obtain ⟨t2, h5, e5⟩ := stack_of_map m5
  exact h 2 4 s1 t1 s2 t2 4 (by decide) h2 h3 (by rw [e3, e2]) h4 h5 (by rw [e5, e4])

/-! ## Steps that do not advance -/

theorem markVisited_eq {c : Cell} (h : c.visited = true) : c.markVisited = c := by
  cases c with
  | mk w r c v =>
    simp only at h
    subst h
    rfl

theorem retreat_grid_eq {C R : Nat} {s t : State} (h : Retreat C R s t)
    (hcur : visitedAt s.grid s.currentCell) : t.grid = s.grid := by
  apply List.ext_getElem?
  intro q
  rw [h.grid q]
  cases hq : s.grid[q]? with
  | none => rfl
  | some c =>
    simp only [Option.map_some', Option.some.injEq]
    unfold markCell
    by_cases e : q = s.currentCell
    · rw [if_pos e]
      obtain ⟨c2, hc2, hcv⟩ := visitedAt_iff.1 hcur
      rw [← e, hq] at hc2
      cases hc2
      exact markVisited_eq hcv
    · rw [if_neg e]

theorem state_eq {s t : State} (h1 : t.grid = s.grid) (h2 : t.currentCell = s.currentCell)
    (h3 : t.backTrackStack = s.backTrackStack) : t = s := by
  cases s
  cases t
  simp only at h1 h2 h3
  rw [h1, h2, h3]

theorem stuck_of_GetNeighbors {C R : Nat} {s : State} (hwf : WFGrid C R s.grid) {a : Cell}
    (ha : s.grid[s.currentCell]? = some a)
    (h : GetNeighbors s.currentCell s.grid C R = some none) :
    unvisitedNeighbors s.grid C R a = [] := by
  rw [GetNeighbors_wf hwf ha] at h
  by_contra hne
  rw [if_neg hne] at h
  cases h

theorem run_current_visited_or_init {C R : Nat} (hC : 1 ≤ C) (hR : 1 ≤ R) (rs : Nat → Nat)
    (k : Nat) :
    ∃ s, run C R rs k = some s ∧ Inv C R s ∧
      (visitedAt s.grid s.currentCell ∨ s.backTrackStack = []) := by
  cases k with
  | zero => exact ⟨_, initState_eq hC hR, Inv_init hC hR, Or.inr rfl⟩
  | succ k =>
    obtain ⟨s, hs, hinv, hv⟩ := run_succ_current_visited hC hR rs k
    exact ⟨s, hs, hinv, Or.inl hv⟩

/-- C14: once the generator is done, after at least one step, every further
step is a no-op: it returns the very same state, whatever the random outcome. -/
theorem done_noop (C R : Nat) (hC : 1 ≤ C) (hR : 1 ≤ R) (rs : Nat → Nat) (k : Nat) :
    ∃ s, run C R rs (k + 1) = some s ∧
      (isDone C R s → ∀ r, step C R s r = some s) := by
  obtain ⟨s, hs, hinv, hcur⟩ := run_succ_current_visited hC hR rs k
  refine ⟨s, hs, fun hdone r => ?_⟩
  obtain ⟨a, ha⟩ := wf_exists hinv.wf hinv.cur
  obtain ⟨hstuck, hstack⟩ := (isDone_iff hinv.wf ha).1 hdone
  obtain ⟨t, ht, hret⟩ := step_retreat hinv.wf ha hstuck r
  rw [ht]
  have hmove : t.backTrackStack = s.backTrackStack ∧ t.currentCell = s.currentCell := by
    rcases hret.move with ⟨rest, h1, -⟩ | ⟨h1, h2, h3⟩
    · rw [hstack] at h1
      cases h1
    · exact ⟨by rw [h2, h1], h3⟩
  rw [state_eq (retreat_grid_eq hret hcur) hmove.2 hmove.1]

theorem done_noop_witness :
    ∃ s, run ((2 : Nat) : Int) ((2 : Nat) : Int) (fun _ => 0) (5 + 1) = some s ∧
      (isDone ((2 : Nat) : Int) ((2 : Nat) : Int) s →
        ∀ r, step ((2 : Nat) : Int) ((2 : Nat) : Int) s r = some s) :=
  done_noop 2 2 (by decide) (by decide) (fun _ => 0) 5

/-- C17: backtracking is pure.  In a reachable state whose current cell has no
unvisited neighbour and whose stack is not empty, a step makes the top of the
stack the current cell, removes exactly that entry from the stack and returns
the grid unchanged: no wall flag and no visited flag is touched. -/
theorem pure_backtrack (C R : Nat) (hC : 1 ≤ C) (hR : 1 ≤ R) (rs : Nat → Nat) (k : Nat) :
    ∃ s, run C R rs k = some s ∧
      (GetNeighbors s.currentCell s.grid C R = some none →
        ∀ (top : CellRef) (rest : List CellRef), s.backTrackStack = top :: rest →
          ∀ r, step C R s r =
            some { grid := s.grid, currentCell := top, backTrackStack := rest }) := by
  obtain ⟨s, hs, hinv, hcur⟩ := run_current_visited_or_init hC hR rs k
  refine ⟨s, hs, fun hnone top rest hst r => ?_⟩
  obtain ⟨a, ha⟩ := wf_exists hinv.wf hinv.cur
  have hstuck := stuck_of_GetNeighbors hinv.wf ha hnone
  have hv : visitedAt s.grid s.currentCell := by
    rcases hcur with h | h
    · exact h
    · rw [h] at hst
      cases hst
  obtain ⟨t, ht, hret⟩ := step_retreat hinv.wf ha hstuck r
  rw [ht]
  have hmove : t.currentCell = top ∧ t.backTrackStack = rest := by
    rcases hret.move with ⟨rest2, h1, h2⟩ | ⟨h1, -, -⟩
    · rw [hst] at h1
      have h3 := List.cons.inj h1
      exact ⟨h3.1.symm, by rw [h2, h3.2]⟩
    · rw [hst] at h1
      cases h1
  have hg : t.grid = s.grid := retreat_grid_eq hret hv
  cases t with
  | mk g c st =>
    simp only at hg hmove
    rw [hg, hmove.1, hmove.2]

theorem pure_backtrack_witness :
    ∃ s, run ((2 : Nat) : Int) ((1 : Nat) : Int) (fun _ => 0) 1 = some s ∧
      (GetNeighbors s.currentCell s.grid ((2 : Nat) : Int) ((1 : Nat) : Int) = some none →
        ∀ (top : CellRef) (rest : List CellRef), s.backTrackStack = top :: rest →
          ∀ r, step ((2 : Nat) : Int) ((1 : Nat) : Int) s r =
            some { grid := s.grid, currentCell := top, backTrackStack := rest }) :=
  pure_backtrack 2 1 (by decide) (by decide) (fun _ => 0) 1

/-! ## Boundary walls -/

theorem wallsInside_advance {C R : Nat} {s t : State} {n : CellRef} {d : Fin 4} {r : Nat}
    (hw : wallsInside s.grid) (h : Advance C R s t n d r) : wallsInside t.grid := by
  obtain ⟨a, b, ha, hb, hdir, hv⟩ := h.neighbour
  have hne := advance_ne h
  intro p a2 e ha2 hfalse
  obtain ⟨cp, hcp, rfl⟩ := cell_of_map h.grid ha2
  rcases (advanceCell_walls hne _ _ _ _).1 hfalse with h1 | ⟨rfl, rfl⟩ | ⟨rfl, rfl⟩
  · obtain ⟨q, cq, hcq, hd⟩ := hw p cp e hcp h1
    exact ⟨q, _, map_of_cell h.grid hcq,
      (inDirection_congr (advanceCell_coords _ _ _ _ _) (advanceCell_coords _ _ _ _ _)).2 hd⟩
  · rw [hb] at hcp
    cases hcp
    exact ⟨s.currentCell, _, map_of_cell h.grid ha,
      (inDirection_congr (advanceCell_coords _ _ _ _ _) (advanceCell_coords _ _ _ _ _)).2
        (inDirection_opp hdir)⟩
  · rw [ha] at hcp
    cases hcp
    exact ⟨n, _, map_of_cell h.grid hb,
      (inDirection_congr (advanceCell_coords _ _ _ _ _) (advanceCell_coords _ _ _ _ _)).2 hdir⟩

theorem wallsInside_retreat {C R : Nat} {s t : State} (hw : wallsInside s.grid)
    (h : Retreat C R s t) : wallsInside t.grid := by
  intro p a2 e ha2 hfalse
  obtain ⟨cp, hcp, rfl⟩ := cell_of_map h.grid ha2
  rw [markCell_walls] at hfalse
  obtain ⟨q, cq, hcq, hd⟩ := hw p cp e hcp hfalse
  exact ⟨q, _, map_of_cell h.grid hcq,
    (inDirection_congr (markCell_coords _ _ _) (markCell_coords _ _ _)).2 hd⟩

theorem run_wallsInside {C R : Nat} (hC : 1 ≤ C) (hR : 1 ≤ R) (rs : Nat → Nat) (k : Nat) :
    ∃ s, run C R rs k = some s ∧ Inv C R s ∧ wallsInside s.grid := by
  induction k with
  | zero =>
    refine ⟨_, initState_eq hC hR, Inv_init hC hR, ?_⟩
    intro p a d ha hfalse
    rw [(initGrid_cell ha).2 d] at hfalse
    cases hfalse
  | succ k ih =>
    obtain ⟨s, hs, hinv, hw⟩ := ih
    obtain ⟨t, h1, h2⟩ := step_cases hinv.wf hinv.cur (rs k)
    have hrun : run C R rs (k + 1) = some t := by
      simp only [run, hs]
      exact h1
    rcases h2 with ⟨n, d, h⟩ | h
    · exact ⟨t, hrun, Inv_advance hinv h, wallsInside_advance hw h⟩
    · exact ⟨t, hrun, Inv_retreat hinv h, wallsInside_retreat hw h⟩

theorem border_of_wallsInside {C R : Nat} {g : List Cell} (hwf : WFGrid C R g)
    (hw : wallsInside g) {p : CellRef} {a : Cell} {d : Fin 4} (ha : g[p]? = some a)
    (hout : ¬ (0 ≤ a.col + dcol d ∧ a.col + dcol d < C ∧
      0 ≤ a.row + drow d ∧ a.row + drow d < R)) : a.walls d = true := by
  cases hx : a.walls d with
  | true => rfl
  | false =>
    exfalso
    obtain ⟨q, b, hb, hd⟩ := hw p a d ha hx
    obtain ⟨-, b1, b2, b3, b4, -⟩ := wf_cell hwf hb
    apply hout
    unfold inDirection at hd
    rw [← hd.1, ← hd.2]
    exact ⟨b1, b2, b3, b4⟩

/-- C16: the outer boundary walls are never removed.  In every reachable
state, a wall flag whose direction leads to coordinates outside the grid is
true; on the 1x1 grid all four walls of the single cell are true. -/
theorem border_walls (C R : Nat) (hC : 1 ≤ C) (hR : 1 ≤ R) (rs : Nat → Nat) (k : Nat) :
    ∃ s, run C R rs k = some s ∧
      (∀ (p : CellRef) (a : Cell) (d : Fin 4), s.grid[p]? = some a →
        ¬ (0 ≤ a.col + dcol d ∧ a.col + dcol d < C ∧
          0 ≤ a.row + drow d ∧ a.row + drow d < R) → a.walls d = true) ∧
      (C = 1 → R = 1 → s.grid.length = 1 ∧ ∀ c ∈ s.grid, ∀ d, c.walls d = true) := by
  obtain ⟨s, hs, hinv, hw⟩ := run_wallsInside hC hR rs k
  refine ⟨s, hs, fun p a d ha hout => border_of_wallsInside hinv.wf hw ha hout, ?_⟩
  intro h1 h2
  subst h1 h2
  refine ⟨hinv.wf.1, ?_⟩
  intro c hc d
  obtain ⟨p, hp, hpc⟩ := List.getElem_of_mem hc
  have hpc2 : s.grid[p]? = some c := by
    rw [List.getElem?_eq_getElem hp, hpc]
  obtain ⟨-, c1, c2, c3, c4, -⟩ := wf_cell hinv.wf hpc2
  apply border_of_wallsInside hinv.wf hw hpc2
  have e1 : c.col = 0 := by omega
  have e2 : c.row = 0 := by omega
  rw [e1, e2]
  fin_cases d <;> simp [dcol, drow]

theorem border_walls_witness :
    ∃ s, run ((1 : Nat) : Int) ((1 : Nat) : Int) (fun _ => 0) 1 = some s ∧
      (∀ (p : CellRef) (a : Cell) (d : Fin 4), s.grid[p]? = some a →
        ¬ (0 ≤ a.col + dcol d ∧ a.col + dcol d < ((1 : Nat) : Int) ∧
          0 ≤ a.row + drow d ∧ a.row + drow d < ((1 : Nat) : Int)) → a.walls d = true) ∧
      ((1 : Nat) = 1 → (1 : Nat) = 1 →
        s.grid.length = 1 ∧ ∀ c ∈ s.grid, ∀ d, c.walls d = true) :=
  border_walls 1 1 (by decide) (by decide) (fun _ => 0) 1

/-! ## Safety of the step -/

theorem GetRandomNeighbor_wf {C R : Nat} {g : List Cell} (hwf : WFGrid C R g) {c : CellRef}
    {a : Cell} (ha : g[c]? = some a) (r : Nat) :
    ∃ res, GetRandomNeighbor c g C R r = some res ∧
      ∀ n, res = some n → n ∈ unvisitedNeighbors g C R a := by
  unfold GetRandomNeighbor
  rw [GetNeighbors_wf hwf ha]
  by_cases hL : unvisitedNeighbors g C R a = []
  · rw [if_pos hL]
    refine ⟨none, rfl, ?_⟩
    intro n hn
    cases hn
  · rw [if_neg hL]
    have hlt : r % (unvisitedNeighbors g C R a).length < (unvisitedNeighbors g C R a).length :=
      Nat.mod_lt _ (List.length_pos.2 hL)
    simp only [List.getElem?_eq_getElem hlt]
    refine ⟨_, rfl, ?_⟩
    intro n hn
    simp only [Option.some.injEq] at hn
    rw [← hn]
    exact List.getElem_mem _

theorem inDirection_adjacent {d : Fin 4} {a b : Cell} (h : inDirection d a b) :
    ((b.col - a.col).natAbs = 1 ∧ b.row = a.row) ∨
      (b.col = a.col ∧ (b.row - a.row).natAbs = 1) := by
  unfold inDirection at h
  fin_cases d <;> simp [dcol, drow] at h <;> omega

theorem index_in_range {C R : Nat} {g : List Cell} (hwf : WFGrid C R g) (i j : Int)
    (h : index i j C R ≠ -1) :
    0 ≤ index i j C R ∧ (index i j C R).toNat < g.length ∧
      getCellAt i j C R g = some (some (index i j C R).toNat) := by
  have hb : 0 ≤ i ∧ i < C ∧ 0 ≤ j ∧ j < R := by
    by_contra hb
    apply h
    unfold index
    rw [if_pos (by omega)]
  have hidx : index i j C R = i + j * C := by
    unfold index
    rw [if_neg (by omega)]
  obtain ⟨c, hc, -, -, hl⟩ := wf_lookup hwf hb.1 hb.2.1 hb.2.2.1 hb.2.2.2
  rw [hidx, getCellAt_wf hwf, if_pos hb]
  exact ⟨(inBounds_index_lt hb.1 hb.2.1 hb.2.2.1 hb.2.2.2).1, by rw [hwf.1]; exact hl, rfl⟩

/-- C18: in every reachable state the call of `GetRandomNeighbor` made by the
step returns without panic, and a cell it returns is a cell of the grid, is
unvisited and is a direct 4-neighbour of the current cell (it differs by exactly
1 in exactly one of col/row); so the guard `!nextCell.visited` accepts it and
`removeWalls` is called on direct neighbours only. -/
theorem chosen_is_neighbour (C R : Nat) (hC : 1 ≤ C) (hR : 1 ≤ R) (rs : Nat → Nat) (k : Nat) :
    ∃ s, run C R rs k = some s ∧
      ∀ r, ∃ res,
        GetRandomNeighbor s.currentCell (modifyCell s.grid s.currentCell Cell.markVisited)
          C R r = some res ∧
        ∀ n, res = some n →
          ∃ a b, (modifyCell s.grid s.currentCell Cell.markVisited)[s.currentCell]? = some a ∧
            (modifyCell s.grid s.currentCell Cell.markVisited)[n]? = some b ∧
            n < s.grid.length ∧ b.visited = false ∧
            (((b.col - a.col).natAbs = 1 ∧ b.row = a.row) ∨
              (b.col = a.col ∧ (b.row - a.row).natAbs = 1)) ∧
            isFresh (modifyCell s.grid s.currentCell Cell.markVisited) (some n) = true ∧
            ∃ d, inDirection d a b ∧
              removeWalls a b = (a.setWall d false, b.setWall (d + 2) false) := by
  obtain ⟨s, hs, hinv⟩ := run_inv hC hR rs k
  refine ⟨s, hs, fun r => ?_⟩
  obtain ⟨a, ha⟩ := wf_exists hinv.wf hinv.cur
  have hwf1 : WFGrid C R (modifyCell s.grid s.currentCell Cell.markVisited) :=
    wf_modifyCell hinv.wf _ _ (fun c => ⟨rfl, rfl⟩)
  have ha1 : (modifyCell s.grid s.currentCell Cell.markVisited)[s.currentCell]? =
      some a.markVisited := by
    rw [modifyCell_getElem?, if_pos rfl, ha]
    rfl
  obtain ⟨res, hres, hmem⟩ := GetRandomNeighbor_wf hwf1 ha1 r
  refine ⟨res, hres, fun n hn => ?_⟩
  obtain ⟨d, b, hb, hdir, hv⟩ := (mem_unvisitedNeighbors hwf1 _ n).1 (hmem n hn)
  have hlt : n < s.grid.length := by
    have := (List.getElem?_eq_some.1 hb).1
    rwa [modifyCell_length] at this
  refine ⟨a.markVisited, b, ha1, hb, hlt, hv, inDirection_adjacent hdir, ?_, d, hdir,
    removeWalls_of_inDirection hdir⟩
  unfold isFresh
  simp only [hb, hv, Bool.not_false]

theorem chosen_is_neighbour_witness :
    ∃ s, run ((2 : Nat) : Int) ((2 : Nat) : Int) (fun _ => 0) 1 = some s ∧
      ∀ r, ∃ res,
        GetRandomNeighbor s.currentCell (modifyCell s.grid s.currentCell Cell.markVisited)
          ((2 : Nat) : Int) ((2 : Nat) : Int) r = some res ∧
        ∀ n, res = some n →
          ∃ a b, (modifyCell s.grid s.currentCell Cell.markVisited)[s.currentCell]? = some a ∧
            (modifyCell s.grid s.currentCell Cell.markVisited)[n]? = some b ∧
            n < s.grid.length ∧ b.visited = false ∧
            (((b.col - a.col).natAbs = 1 ∧ b.row = a.row) ∨
              (b.col = a.col ∧ (b.row - a.row).natAbs = 1)) ∧
            isFresh (modifyCell s.grid s.currentCell Cell.markVisited) (some n) = true ∧
            ∃ d, inDirection d a b ∧
              removeWalls a b = (a.setWall d false, b.setWall (d + 2) false) :=
  chosen_is_neighbour 2 2 (by decide) (by decide) (fun _ => 0) 1

/-- C19: the generator step is panic-free.  In every reachable state of a run
on an `initGrid` grid, (1) every index computed by `getCellAt` that is not `-1`
lies in `[0, len(grid))`, so `grid[possibleIndex]` is in range, (2) a non-nil
neighbour list is non-empty and every random index below its length is in
range, and (3) the step returns a state for every random outcome, `Pop` failing
only on the empty stack, which the guard `Len() > 0` excludes. -/
theorem panic_free (C R : Nat) (hC : 1 ≤ C) (hR : 1 ≤ R) (rs : Nat → Nat) (k : Nat) :
    ∃ s, run C R rs k = some s ∧
      (∀ g : List Cell, (g = s.grid ∨ g = modifyCell s.grid s.currentCell Cell.markVisited) →
        ∀ i j : Int, index i j C R ≠ -1 →
          0 ≤ index i j C R ∧ (index i j C R).toNat < g.length ∧
          getCellAt i j C R g = some (some (index i j C R).toNat)) ∧
      (∀ L, GetNeighbors s.currentCell (modifyCell s.grid s.currentCell Cell.markVisited)
          C R = some (some L) →
        0 < L.length ∧ ∀ r, r < L.length → ∃ n, L[r]? = some n) ∧
      (∀ r, ∃ t, step C R s r = some t) ∧
      (s.backTrackStack.Pop = none ↔ s.backTrackStack.Len = 0) := by
  obtain ⟨s, hs, hinv⟩ := run_inv hC hR rs k
  have hwf1 : WFGrid C R (modifyCell s.grid s.currentCell Cell.markVisited) :=
    wf_modifyCell hinv.wf _ _ (fun c => ⟨rfl, rfl⟩)
  refine ⟨s, hs, ?_, ?_, ?_, ?_⟩
  · intro g hg i j hidx
    rcases hg with e | e
    · rw [e]
      exact index_in_range hinv.wf i j hidx
    · rw [e]
      exact index_in_range hwf1 i j hidx
  · intro L hL
    obtain ⟨a, ha⟩ := wf_exists hinv.wf hinv.cur
    have ha1 : (modifyCell s.grid s.currentCell Cell.markVisited)[s.currentCell]? =
        some a.markVisited := by
      rw [modifyCell_getElem?, if_pos rfl, ha]
      rfl
    obtain ⟨hLe, hLne⟩ := GetNeighbors_some hwf1 ha1 hL
    rw [← hLe] at hLne
    exact ⟨List.length_pos.2 hLne, fun r hr => ⟨L[r], List.getElem?_eq_getElem hr⟩⟩
  · intro r
    obtain ⟨t, ht, -⟩ := step_cases hinv.wf hinv.cur r
    exact ⟨t, ht⟩
  · unfold Stack.Pop Stack.Len
    cases s.backTrackStack <;> simp

theorem panic_free_witness :
    ∃ s, run ((2 : Nat) : Int) ((2 : Nat) : Int) (fun _ => 0) 2 = some s ∧
      (∀ g : List Cell, (g = s.grid ∨ g = modifyCell s.grid s.currentCell Cell.markVisited) →
        ∀ i j : Int, index i j ((2 : Nat) : Int) ((2 : Nat) : Int) ≠ -1 →
          0 ≤ index i j ((2 : Nat) : Int) ((2 : Nat) : Int) ∧
          (index i j ((2 : Nat) : Int) ((2 : Nat) : Int)).toNat < g.length ∧
          getCellAt i j ((2 : Nat) : Int) ((2 : Nat) : Int) g =
            some (some (index i j ((2 : Nat) : Int) ((2 : Nat) : Int)).toNat)) ∧
      (∀ L, GetNeighbors s.currentCell (modifyCell s.grid s.currentCell Cell.markVisited)
          ((2 : Nat) : Int) ((2 : Nat) : Int) = some (some L) →
        0 < L.length ∧ ∀ r, r < L.length → ∃ n, L[r]? = some n) ∧
      (∀ r, ∃ t, step ((2 : Nat) : Int) ((2 : Nat) : Int) s r = some t) ∧
      (s.backTrackStack.Pop = none ↔ s.backTrackStack.Len = 0) :=
  panic_free 2 2 (by decide) (by decide) (fun _ => 0) 2

/-! ## Scenario S3 -/

theorem state_of_map {β : Type} {o : Option State} {f : State → β} {v : β}
    (h : o.map f = some v) : ∃ s, o = some s ∧ f s = v := by
  cases o with
  | none => cases h
  | some s =>
    simp only [Option.map_some', Option.some.injEq] at h
    exact ⟨s, rfl, h⟩

/-- C15, as amended: on the 2x2 grid with a random source that always returns
0 the three advancing steps visit, in (col,row) notation,
(0,0) -> (1,0) -> (1,1) -> (0,1); after termination exactly the three wall pairs
between consecutive cells of this sequence are removed, the fourth internal
wall pair, between (0,0) and (0,1), is intact, and so are all outer walls. -/
theorem scenario_S3 :
    (List.range 4).map (currentCoords ((2 : Nat) : Int) ((2 : Nat) : Int) (fun _ => 0)) =
      [some (0, 0), some (1, 0), some (1, 1), some (0, 1)] ∧
    (List.range 4).map (stackAfter ((2 : Nat) : Int) ((2 : Nat) : Int) (fun _ => 0)) =
      [some [], some [0], some [1, 0], some [3, 1, 0]] ∧
    ∃ s, run ((2 : Nat) : Int) ((2 : Nat) : Int) (fun _ => 0) 6 = some s ∧
      isDone ((2 : Nat) : Int) ((2 : Nat) : Int) s ∧
      carved s.grid 0 1 ∧ carved s.grid 1 3 ∧ carved s.grid 3 2 ∧ ¬ carved s.grid 0 2 ∧
      removedWallPairs s.grid = 3 ∧
      s.grid.map (fun c => (c.col, c.row, wallsOf c)) =
        [(0, 0, [true, false, true, true]), (1, 0, [true, true, false, false]),
         (0, 1, [true, false, true, true]), (1, 1, [false, true, true, false])] := by
  refine ⟨by decide, by decide, ?_⟩
  have m1 : (run ((2 : Nat) : Int) ((2 : Nat) : Int) (fun _ => 0) 6).map
      (fun s => (decide (isDone ((2 : Nat) : Int) ((2 : Nat) : Int) s),
        decide (carved s.grid 0 1), decide (carved s.grid 1 3), decide (carved s.grid 3 2),
        decide (carved s.grid 0 2))) = some (true, true, true, true, false) := by
    decide
  have m2 : (run ((2 : Nat) : Int) ((2 : Nat) : Int) (fun _ => 0) 6).map
      (fun s => removedWallPairs s.grid) = some 3 := by
    decide
  have m3 : (run ((2 : Nat) : Int) ((2 : Nat) : Int) (fun _ => 0) 6).map
      (fun s => s.grid.map (fun c => (c.col, c.row, wallsOf c))) =
      some [(0, 0, [true, false, true, true]), (1, 0, [true, true, false, false]),
         (0, 1, [true, false, true, true]), (1, 1, [false, true, true, false])] := by
    decide
  obtain ⟨s, hs, hv⟩ := state_of_map m1
  rw [hs] at m2 m3
  simp only [Option.map_some', Option.some.injEq] at m2 m3
  simp only [Prod.mk.injEq, decide_eq_true_eq, decide_eq_false_iff_not] at hv
  exact ⟨s, hs, hv.1, hv.2.1, hv.2.2.1, hv.2.2.2.1, hv.2.2.2.2, m2, m3⟩

/-- Counterexample to C15 as stated: the first advancing step moves to the
cell (1,0), not to (0,1), so the sequence of current cells is not the claimed
one, and the wall pair between (0,0) and (0,1), the first one the claimed
sequence would remove, is intact after termination. -/
theorem scenario_S3_as_stated_fails :
    currentCoords ((2 : Nat) : Int) ((2 : Nat) : Int) (fun _ => 0) 1 = some (1, 0) ∧
    (List.range 4).map (currentCoords ((2 : Nat) : Int) ((2 : Nat) : Int) (fun _ => 0)) ≠
      [some (0, 0), some (0, 1), some (1, 1), some (1, 0)] ∧
    (run ((2 : Nat) : Int) ((2 : Nat) : Int) (fun _ => 0) 6).map
      (fun s => (decide (isDone ((2 : Nat) : Int) ((2 : Nat) : Int) s),
        decide (carved s.grid 0 2))) = some (true, false) := by
  refine ⟨by decide, by decide, by decide⟩

end Maze
